import Mathlib

/-! SmartGaze glint tracking (`src/eyetracking.cpp`)

A shallow embedding of the glint detection core of the SmartGaze eye tracker:
the local centroid refiner `findLocalCenter`, the candidate scan, refinement and
ordering steps of `trackGlints`, and the frame pipeline of `trackFrame` (sensor defect
correction, downsampling, glint search, regions of interest, debug composite).

C++ `int` values are embedded as `Int`.  Pixel indices stay within the image
dimensions, and the window bounds `p.x ± size`, `p.y ± size` are formed exactly, which
agrees with `int` arithmetic whenever the point and the size fit in `int` with room to
spare, as in every call made by `trackGlints`.  The accumulators of `findLocalCenter`
can exceed the range of a 32-bit `int` on very large images; they are embedded with
explicit wrap-around modulo `2^32` (`wrapInt32`), and the theorems on the mean carry
the bound under which no wrap occurs.
-/

namespace SmartGaze

set_option maxRecDepth 100000

/-! ## Data model -/

/-- Integer pixel coordinate (`cv::Point`): `x` is the column, `y` is the row. -/
structure Point where
  x : Int
  y : Int
deriving DecidableEq

/-- Single-channel image (`cv::Mat`): `rows`, `cols` and the sample `px i j` stored at
row `i`, column `j`.  Only samples with `0 ≤ i < rows` and `0 ≤ j < cols` belong to
the image; the code never reads any other. -/
structure Mat where
  rows : Nat
  cols : Nat
  px : Int → Int → Nat

/-- Integer rectangle (`cv::Rect`): top-left corner and extent. -/
structure Rect where
  x : Int
  y : Int
  width : Int
  height : Int
deriving DecidableEq

/-- Source constant `kFirstGlintXShadow`. -/
def kFirstGlintXShadow : Int := 100

/-- Source constant `kGlintNeighbourhood`. -/
def kGlintNeighbourhood : Int := 100

/-- Source constant `kEyeRegionWidth`. -/
def kEyeRegionWidth : Int := 200

/-- Source constant `kEyeRegionHeight`. -/
def kEyeRegionHeight : Int := 160

/-- The values taken by the counter of `for (int k = lo; k < hi; k++)`, in order. -/
def loopRange (lo hi : Int) : List Int :=
  (List.range (hi - lo).toNat).map (fun (k : Nat) => lo + (k : Int))

/-! ## `findLocalCenter` -/

/-- A value reduced to the range of a 32-bit `int`, `-2^31 ≤ v < 2^31`, modulo `2^32`.
Signed overflow has no defined meaning in C++; the compiled additions of
`findLocalCenter` wrap around in two's complement, which is what this function does. -/
def wrapInt32 (v : Int) : Int :=
  (v + 2147483648) % 4294967296 - 2147483648

/-- The three accumulators `int xSum`, `int ySum`, `int count` of `findLocalCenter`. -/
structure CenterAcc where
  xSum : Int
  ySum : Int
  count : Int
deriving DecidableEq

/-- Body of the inner loop of `findLocalCenter` at row `i`, column `j`:
`xSum += j; ySum += i; count += 1` on 32-bit `int`. -/
def findLocalCenter.visit (m : Mat) (i : Int) (a : CenterAcc) (j : Int) : CenterAcc :=
  if m.px i j = 0 then
    ⟨wrapInt32 (a.xSum + j), wrapInt32 (a.ySum + i), wrapInt32 (a.count + 1)⟩
  else a

/-- Body of the outer loop of `findLocalCenter`: the inner loop over the columns
`max(0, p.x - size) ≤ j < min(m.cols, p.x + size)` of row `i`. -/
def findLocalCenter.row (m : Mat) (p : Point) (size : Int) (a : CenterAcc) (i : Int) :
    CenterAcc :=
  (loopRange (max 0 (p.x - size)) (min (m.cols : Int) (p.x + size))).foldl
    (findLocalCenter.visit m i) a

/-- The accumulators of `findLocalCenter` after both loops. -/
def findLocalCenter.sums (m : Mat) (p : Point) (size : Int) : CenterAcc :=
  (loopRange (max 0 (p.y - size)) (min (m.rows : Int) (p.y + size))).foldl
    (findLocalCenter.row m p size) ⟨0, 0, 0⟩

/-- The function `findLocalCenter(m, p, size)`: the average position of the pixels of
value `0` in the clipped window around `p`, or `(0,0)` when there is none.  The sums
are the 32-bit accumulators, so the average is that of the marker positions only as long
as they do not overflow.  C++ `/` on `int` truncates toward zero (`Int.tdiv`). -/
def findLocalCenter (m : Mat) (p : Point) (size : Int) : Point :=
  let a := findLocalCenter.sums m p size
  if a.count = 0 then ⟨0, 0⟩ else ⟨a.xSum.tdiv a.count, a.ySum.tdiv a.count⟩

/-- Marker pixels (value 0) of the clipped window, as (row, column) pairs. -/
def windowMarkers (m : Mat) (p : Point) (size : Int) : Finset (Int × Int) :=
  ((Finset.Ico (max 0 (p.y - size)) (min (m.rows : Int) (p.y + size))) ×ˢ
    (Finset.Ico (max 0 (p.x - size)) (min (m.cols : Int) (p.x + size)))).filter
    (fun q => m.px q.1 q.2 = 0)

/-! ## `trackGlints`: the candidate scan -/

/-- Inner loop of the scan of `trackGlints` over the remaining columns `js` of row `i`,
with the current `result` vector.  A pixel of value `0` is pushed when `result` is
empty; otherwise it is pushed, and the loop left (`break`), when its column is more
than `kFirstGlintXShadow` away from `result[0].x`. -/
def trackGlints.scanRow (m : Mat) (i : Int) : List Int → List Point → List Point
  | [], result => result
  | j :: js, result =>
    if m.px i j = 0 then
      match result with
      | [] => trackGlints.scanRow m i js [⟨j, i⟩]
      | r0 :: rest =>
        if j > r0.x + kFirstGlintXShadow ∨ j < r0.x - kFirstGlintXShadow then
          (r0 :: rest) ++ [⟨j, i⟩]
        else trackGlints.scanRow m i js (r0 :: rest)
    else trackGlints.scanRow m i js result

/-- Outer loop of the scan of `trackGlints` over the remaining rows: it stops
(`break`) once `result.size() >= 2`. -/
def trackGlints.scanRows (m : Mat) : List Int → List Point → List Point
  | [], result => result
  | i :: is, result =>
    if result.length ≥ 2 then result
    else trackGlints.scanRows m is
      (trackGlints.scanRow m i (loopRange 0 (m.cols : Int)) result)

/-- The raw candidates found by the scan loop of `trackGlints` (lines 63-77) on the
binarized image `m`. -/
def trackGlints.scan (m : Mat) : List Point :=
  trackGlints.scanRows m (loopRange 0 (m.rows : Int)) []

/-- A marker pixel of `m`: a position inside the image holding value `0`. -/
def IsMarker (m : Mat) (q : Point) : Prop :=
  0 ≤ q.y ∧ q.y < (m.rows : Int) ∧ 0 ≤ q.x ∧ q.x < (m.cols : Int) ∧ m.px q.y q.x = 0

instance (m : Mat) (q : Point) : Decidable (IsMarker m q) := by
  unfold IsMarker
  infer_instance

/-- Raster order: `a` is visited strictly before `b` when rows are read top to bottom
and each row left to right. -/
def RasterBefore (a b : Point) : Prop :=
  a.y < b.y ∨ (a.y = b.y ∧ a.x < b.x)

/-- Column `j` lies outside the shadow of column `x0`: more than 100 columns away. -/
def OutsideShadow (x0 j : Int) : Prop :=
  j > x0 + 100 ∨ j < x0 - 100

instance (x0 j : Int) : Decidable (OutsideShadow x0 j) := by
  unfold OutsideShadow
  infer_instance

/-- The point `c` is the first marker pixel of `m` in raster order among those
satisfying `P`. -/
def IsFirstMarker (m : Mat) (P : Point → Prop) (c : Point) : Prop :=
  IsMarker m c ∧ P c ∧ ∀ q, IsMarker m q → P q → c = q ∨ RasterBefore c q

/-- All pixel positions of `m` in raster order. -/
def raster (m : Mat) : List Point :=
  (loopRange 0 (m.rows : Int)).flatMap
    (fun i => (loopRange 0 (m.cols : Int)).map (fun j => (⟨j, i⟩ : Point)))

/-- The scan of `trackGlints` run over an explicit sequence of pixel positions. -/
def scanList (m : Mat) : List Point → List Point → List Point
  | [], result => result
  | q :: ps, result =>
    if result.length ≥ 2 then result
    else if m.px q.y q.x = 0 then
      match result with
      | [] => scanList m ps [q]
      | r0 :: rest =>
        if q.x > r0.x + kFirstGlintXShadow ∨ q.x < r0.x - kFirstGlintXShadow then
          (r0 :: rest) ++ [q]
        else scanList m ps (r0 :: rest)
    else scanList m ps result

/-! ## `trackGlints`: refinement and ordering -/

/-- The refinement loop of `trackGlints`: every candidate is replaced by
`findLocalCenter(m, p, kGlintNeighbourhood)`. -/
def trackGlints.refine (m : Mat) (result : List Point) : List Point :=
  result.map (fun p => findLocalCenter m p kGlintNeighbourhood)

/-- One insertion step of the ordering by the comparator `a.x < b.x`: `p` is placed
before the first element whose `x` is strictly larger. -/
def sortByX.insert (p : Point) : List Point → List Point
  | [] => [p]
  | q :: qs => if p.x < q.x then p :: q :: qs else q :: sortByX.insert p qs

/-- The call `std::sort(result.begin(), result.end(), [](Point a, Point b) { return a.x < b.x; })`,
as the insertion sort the library runs on short ranges: elements are taken left to
right and inserted into the ordered prefix.  On two elements `[a, b]` it yields
`[b, a]` when `b.x < a.x` and `[a, b]` otherwise. -/
def sortByX (l : List Point) : List Point :=
  l.foldl (fun acc p => sortByX.insert p acc) []

/-- The part of `trackGlints` after the binarization (lines 63-87): scan, refine,
order. -/
def trackGlints.onBinarized (m : Mat) : List Point :=
  sortByX (trackGlints.refine m (trackGlints.scan m))

/-- The function `trackGlints(dat, m)`.  The in-place binarization of line 59 is the
library routine `adaptiveThreshold`, passed here as the image transformation
`binarize`; `dat` is not used by the function. -/
def trackGlints (binarize : Mat → Mat) (m : Mat) : List Point :=
  trackGlints.onBinarized (binarize m)

/-- A marker blob of `m`: a non-empty set of marker pixels of `m`. -/
def IsBlob (m : Mat) (B : Set Point) : Prop :=
  (∃ q, q ∈ B) ∧ ∀ q ∈ B, IsMarker m q

/-- Two sets of pixels are separated horizontally by more than the shadow distance:
every column of one differs by more than 100 from every column of the other. -/
def HSeparated (A B : Set Point) : Prop :=
  ∀ a ∈ A, ∀ b ∈ B, OutsideShadow a.x b.x

/-- Ascending order of the `x` coordinates. -/
def SortedByX (l : List Point) : Prop :=
  l.Pairwise (fun a b => a.x ≤ b.x)

/-- Every column of `B` is closer than the shadow distance (100 columns) to every
column of `A`. -/
def WithinShadow (A B : Set Point) : Prop :=
  ∀ a ∈ A, ∀ b ∈ B, |a.x - b.x| < 100

/-- The marker pixels of `m` are exactly the filled rectangle of columns `x0..x1` and
rows `y0..y1`, which lies inside the image. -/
def IsFilledBlob (m : Mat) (x0 x1 y0 y1 : Int) : Prop :=
  0 ≤ x0 ∧ x0 ≤ x1 ∧ x1 < (m.cols : Int) ∧ 0 ≤ y0 ∧ y0 ≤ y1 ∧ y1 < (m.rows : Int) ∧
  ∀ i j, 0 ≤ i → i < (m.rows : Int) → 0 ≤ j → j < (m.cols : Int) →
    (m.px i j = 0 ↔ (y0 ≤ i ∧ i ≤ y1 ∧ x0 ≤ j ∧ j ≤ x1))

/-! ## `trackFrame`: regions of interest -/

/-- Modelled from the spec: the clipping of a rectangle to the frame bounds.  It is the
intersection `a & b` of `cv::Rect`, a library operator that is not part of the
repository: the overlap of the two rectangles, or the all-zero rectangle when they do
not overlap. -/
def Rect.inter (a b : Rect) : Rect :=
  let x1 := max a.x b.x
  let y1 := max a.y b.y
  let w := min (a.x + a.width) (b.x + b.width) - x1
  let h := min (a.y + a.height) (b.y + b.height) - y1
  if w ≤ 0 ∨ h ≤ 0 then ⟨0, 0, 0, 0⟩ else ⟨x1, y1, w, h⟩

/-- The region of interest of line 112 of `trackFrame` for the glint `g`:
`Rect(g.x*2 - kEyeRegionWidth/2, g.y*2 - kEyeRegionHeight/2, kEyeRegionWidth,
kEyeRegionHeight) & Rect(0, 0, bigM.cols, bigM.rows)`. -/
def trackFrame.roi (bigM : Mat) (g : Point) : Rect :=
  Rect.inter
    ⟨g.x * 2 - kEyeRegionWidth.tdiv 2, g.y * 2 - kEyeRegionHeight.tdiv 2,
      kEyeRegionWidth, kEyeRegionHeight⟩
    ⟨0, 0, (bigM.cols : Int), (bigM.rows : Int)⟩

/-- The per-glint loop of `trackFrame` (lines 110-122): one iteration per element of
`glints`, each extracting one region of interest and computing its edge map.  The
result lists the region of every iteration. -/
def trackFrame.regions (bigM : Mat) (glints : List Point) : List Rect :=
  glints.map (trackFrame.roi bigM)

/-! ## Adaptive binarization -/

/-- Index `k` moved into `0 .. n-1` (border replication). -/
def clampIndex (k n : Int) : Int :=
  max 0 (min k (n - 1))

/-- Sum of the 11x11 neighbourhood of pixel `(i, j)`, the image borders replicated. -/
def boxSum (m : Mat) (i j : Int) : Nat :=
  ((loopRange (-5) 6).map (fun di =>
    ((loopRange (-5) 6).map (fun dj =>
      m.px (clampIndex (i + di) (m.rows : Int)) (clampIndex (j + dj) (m.cols : Int)))).sum)).sum

/-- Mean of the 11x11 neighbourhood, rounded to the nearest integer. -/
def localMean (m : Mat) (i j : Int) : Nat :=
  (2 * boxSum m i j + 121) / 242

/-- Modelled from the spec: the binarization of line 59, the library routine
`adaptiveThreshold(m, m, 255, ADAPTIVE_THRESH_MEAN_C, THRESH_BINARY_INV, 11, -30.0)`,
which is not part of the repository.  The spec describes it as an inverted binary
adaptive threshold with mean-based local threshold, window 11 and bias -30: a pixel
becomes the marker value `0` when it exceeds the mean of its 11x11 neighbourhood minus
the bias, that is plus 30, and `255` otherwise. -/
def adaptiveThreshold (m : Mat) : Mat :=
  ⟨m.rows, m.cols, fun i j => if m.px i j > localMean m i j + 30 then 0 else 255⟩

/-! ## `trackFrame`: the frame pipeline -/

/-- The library image routines called by `trackFrame` and `trackGlints`.  They are not
part of the repository and are parameters of the embedding. -/
structure ImageOps where
  /-- The call `resize(src, dst, Size(cols, rows))`, given the source, `cols`, `rows`. -/
  resize : Mat → Nat → Nat → Mat
  /-- The call `src.convertTo(dst, CV_8U, alpha)` with `alpha = num / den`, given the
  source, `num` and `den`. -/
  convertTo : Mat → Nat → Nat → Mat
  /-- The call `adaptiveThreshold(m, m, 255, ADAPTIVE_THRESH_MEAN_C, THRESH_BINARY_INV,
  11, -30.0)`. -/
  adaptiveThreshold : Mat → Mat

/-- Source constant `k8BitMultiplier = (265.0/1024.0)*2`, numerator. -/
def k8BitMultiplierNum : Nat := 265 * 2

/-- Source constant `k8BitMultiplier = (265.0/1024.0)*2`, denominator. -/
def k8BitMultiplierDen : Nat := 1024

/-- The contents of the argument `m` of `trackGlints(dat, m)` after the call.  `m` is
taken by reference, line 59 binarizes it in place, and the rest of the function only
reads it. -/
def trackGlints.imageAfter (binarize : Mat → Mat) (m : Mat) : Mat :=
  binarize m

/-- Line 96 of `trackFrame`: `bigM.at<uint16_t>(283,627) = bigM.at<uint16_t>(283,626)`,
for a frame that has the pixel (283, 627), that is with `283 < rows` and `627 < cols`.
The statement is not guarded by any test on the dimensions of `bigM`, and `Mat::at`
does not test its indices: on a smaller frame it reads and writes outside the pixel
data, which has no defined meaning, and this definition does not describe it (see
`trackFrame.run`). -/
def trackFrame.fixStuckPixel (bigM : Mat) : Mat :=
  ⟨bigM.rows, bigM.cols, fun i j => if i = 283 ∧ j = 627 then bigM.px 283 626 else bigM.px i j⟩

/-- Line 99 of `trackFrame`: the image `m` after
`resize(bigM, m, Size(bigM.cols/2, bigM.rows/2))`. -/
def trackFrame.downsampled (ops : ImageOps) (bigM : Mat) : Mat :=
  ops.resize (trackFrame.fixStuckPixel bigM) (bigM.cols / 2) (bigM.rows / 2)

/-- Line 102 of `trackFrame`: `glintImage` after `m.convertTo(glintImage, CV_8U,
256.0/1024.0)`, as it is passed to `trackGlints`. -/
def trackFrame.glintImage (ops : ImageOps) (bigM : Mat) : Mat :=
  ops.convertTo (trackFrame.downsampled ops bigM) 256 1024

/-- Line 104 of `trackFrame`: `glints = trackGlints(dat, glintImage)`. -/
def trackFrame.glints (ops : ImageOps) (bigM : Mat) : List Point :=
  trackGlints ops.adaptiveThreshold (trackFrame.glintImage ops bigM)

/-- The contents of `glintImage` after the call of line 104, as read by line 128.  The
call `findGlints(dat->gens, glintImage)` of line 105 is taken not to write to it. -/
def trackFrame.glintImageAfter (ops : ImageOps) (bigM : Mat) : Mat :=
  trackGlints.imageAfter ops.adaptiveThreshold (trackFrame.glintImage ops bigM)

/-- Line 125 of `trackFrame`: `m` after `m.convertTo(m, CV_8U, k8BitMultiplier, 0)`. -/
def trackFrame.display (ops : ImageOps) (bigM : Mat) : Mat :=
  ops.convertTo (trackFrame.downsampled ops bigM) k8BitMultiplierNum k8BitMultiplierDen

/-- Modelled from the spec: the element-wise minimum `min(a, b)` of two images of equal
size, a library operator that is not part of the repository. -/
def cvMin (a b : Mat) : Mat :=
  ⟨a.rows, a.cols, fun i j => min (a.px i j) (b.px i j)⟩

/-- The three planes `channels[0]`, `channels[1]`, `channels[2]` merged into
`debugImage`. -/
structure DebugChannels where
  c0 : Mat
  c1 : Mat
  c2 : Mat

/-- Lines 126-130 of `trackFrame`: `channels[1] = m` and
`channels[0] = channels[2] = min(m, glintImage)`, before the glint circles are drawn. -/
def trackFrame.channels (ops : ImageOps) (bigM : Mat) : DebugChannels :=
  ⟨cvMin (trackFrame.display ops bigM) (trackFrame.glintImageAfter ops bigM),
   trackFrame.display ops bigM,
   cvMin (trackFrame.display ops bigM) (trackFrame.glintImageAfter ops bigM)⟩

/-- The display surfaces written by `imshow`: `std::to_string(i)`,
`std::to_string(i)+"_edges"` and `"main"`. -/
inductive Window where
  | region (i : Nat)
  | edges (i : Nat)
  | main
deriving DecidableEq

/-- The sequence of `imshow` calls of `trackFrame`: a region and its edge map for every
index of `glints` (lines 120-121), then the debug composite (line 136). -/
def trackFrame.shown (glints : List Point) : List Window :=
  (List.range glints.length).flatMap (fun i => [Window.region i, Window.edges i]) ++
    [Window.main]

/-- What one call of `trackFrame` leaves behind. -/
structure FrameResult where
  /-- The frame `bigM`, which is passed by reference, after the call. -/
  frame : Mat
  /-- The glints found in the downsampled image. -/
  glints : List Point
  /-- The region of interest of every glint. -/
  regions : List Rect
  /-- The planes of the debug composite before the glint circles are drawn. -/
  channels : DebugChannels
  /-- The display surfaces written, in order. -/
  shown : List Window

/-- The function `trackFrame(dat, bigM)` on a frame that has the pixel (283, 627).  Its
statements run in sequence; the function has no `return`, no `throw` and no test of the
frame dimensions.  The blur, the edge detection and the comparison detector
`findGlints` only produce displayed images and are not embedded. -/
def trackFrame (ops : ImageOps) (bigM : Mat) : FrameResult :=
  let frame := trackFrame.fixStuckPixel bigM
  let glints := trackFrame.glints ops bigM
  ⟨frame, glints, trackFrame.regions frame glints, trackFrame.channels ops bigM,
    trackFrame.shown glints⟩

/-- Modelled from the spec: the downsampling "halve both dimensions (area-based
resize)" of a frame of even size.  Every target pixel is the rounded mean of the 2x2
block of source pixels it covers. -/
def resizeArea (src : Mat) (cols rows : Nat) : Mat :=
  ⟨rows, cols, fun i j =>
    (src.px (2 * i) (2 * j) + src.px (2 * i) (2 * j + 1) + src.px (2 * i + 1) (2 * j) +
      src.px (2 * i + 1) (2 * j + 1) + 2) / 4⟩

/-- The quotient `a / b` rounded to the nearest integer, ties to the even one. -/
def roundHalfEven (a b : Nat) : Nat :=
  if 2 * (a % b) < b then a / b
  else if b < 2 * (a % b) then a / b + 1
  else if (a / b) % 2 = 0 then a / b else a / b + 1

/-- Modelled from the spec: the intensity rescale to 8 bits by a fixed multiplier
`num / den` ("16-bit → 8-bit, multiplier ≈0.25", "multiplier ≈0.518"): the product is
rounded to the nearest integer and saturated at 255. -/
def convertTo8U (src : Mat) (num den : Nat) : Mat :=
  ⟨src.rows, src.cols, fun i j => min 255 (roundHalfEven (src.px i j * num) den)⟩

/-- The library routines as the spec describes them. -/
def specOps : ImageOps := ⟨resizeArea, convertTo8U, adaptiveThreshold⟩

/-! ## Concrete images -/

/-- One row of 102 pixels with markers in columns 0 and 101. -/
def imgTwo : Mat := ⟨1, 102, fun _ j => if j = 0 ∨ j = 101 then 0 else 255⟩

/-- One row of 203 pixels with markers in columns 0, 101 and 202. -/
def imgThree : Mat := ⟨1, 203, fun _ j => if j = 0 ∨ j = 101 ∨ j = 202 then 0 else 255⟩

/-- One row of 201 pixels: a marker in column 0, a run of markers in columns 40..60
inside its shadow, and a marker in column 200. -/
def imgShadow : Mat :=
  ⟨1, 201, fun _ j => if j = 0 ∨ (40 ≤ j ∧ j ≤ 60) ∨ j = 200 then 0 else 255⟩

/-- The single pixel of row 0 in column `j`, as a set of pixels. -/
def pixelAt (j : Int) : Set Point := {q | q.y = 0 ∧ q.x = j}

/-- The run of markers of `imgShadow` in columns 40..60. -/
def shadowB : Set Point := {q | q.y = 0 ∧ 40 ≤ q.x ∧ q.x ≤ 60}

/-- A 4x4 frame. -/
def frameSmall : Mat := ⟨4, 4, fun _ _ => 0⟩

/-- A 3x3 image of uniform intensity 7. -/
def imgUniform : Mat := ⟨3, 3, fun _ _ => 7⟩

/-- One row of 102 pixels with markers in column 0, columns 90..99 and column 101. -/
def imgNarrow : Mat :=
  ⟨1, 102, fun _ j => if j = 0 ∨ (90 ≤ j ∧ j ≤ 99) ∨ j = 101 then 0 else 255⟩

/-- A 16-bit frame of 284 rows and 628 columns: intensity 1020 in the top-left 2x2 block,
0 elsewhere. -/
def frameGlint : Mat :=
  ⟨284, 628, fun i j => if 0 ≤ i ∧ i < 2 ∧ 0 ≤ j ∧ j < 2 then 1020 else 0⟩

/-- A binarized image of 100 rows and 214900 columns whose markers are the filled square
of columns 214800..214899 and rows 0..99. -/
def imgFar : Mat := ⟨100, 214900, fun _ j => if 214800 ≤ j then 0 else 255⟩

/-- A 2x2 image with intensity 255 in the top-left pixel and 0 elsewhere. -/
def imgBright : Mat := ⟨2, 2, fun i j => if i = 0 ∧ j = 0 then 255 else 0⟩

/-! ## Loop ranges and the accumulators of `findLocalCenter` -/

theorem mem_loopRange (lo hi i : Int) : i ∈ loopRange lo hi ↔ lo ≤ i ∧ i < hi := by
  unfold loopRange
  simp only [List.mem_map, List.mem_range]
  constructor
  · rintro ⟨k, hk, rfl⟩
    omega
  · rintro ⟨h1, h2⟩
    exact ⟨(i - lo).toNat, by omega, by omega⟩

theorem nodup_loopRange (lo hi : Int) : (loopRange lo hi).Nodup := by
  unfold loopRange
  apply List.Nodup.map _ (List.nodup_range _)
  intro a b h
  simpa using h

theorem toFinset_loopRange (lo hi : Int) : (loopRange lo hi).toFinset = Finset.Ico lo hi := by
  ext i
  simp [mem_loopRange]

theorem sum_map_loopRange (lo hi : Int) (f : Int → Int) :
    ((loopRange lo hi).map f).sum = ∑ i in Finset.Ico lo hi, f i := by
  rw [← toFinset_loopRange, List.sum_toFinset f (nodup_loopRange lo hi)]

theorem wrapInt32_add (a b : Int) : wrapInt32 (wrapInt32 a + b) = wrapInt32 (a + b) := by
  unfold wrapInt32
  omega

theorem wrapInt32_of_range (v : Int) (h₀ : 0 ≤ v) (h₁ : v < 2147483648) : wrapInt32 v = v := by
  unfold wrapInt32
  omega

theorem foldl_visit (m : Mat) (i : Int) (js : List Int) (x y c : Int) :
    js.foldl (findLocalCenter.visit m i) ⟨wrapInt32 x, wrapInt32 y, wrapInt32 c⟩ =
      ⟨wrapInt32 (x + (js.map (fun j => if m.px i j = 0 then j else 0)).sum),
       wrapInt32 (y + (js.map (fun j => if m.px i j = 0 then i else 0)).sum),
       wrapInt32 (c + (js.map (fun j => if m.px i j = 0 then (1 : Int) else 0)).sum)⟩ := by
  induction js generalizing x y c with
  | nil => simp
  | cons j js ih =>
    by_cases h : m.px i j = 0
    · have hstep : findLocalCenter.visit m i ⟨wrapInt32 x, wrapInt32 y, wrapInt32 c⟩ j =
          ⟨wrapInt32 (x + j), wrapInt32 (y + i), wrapInt32 (c + 1)⟩ := by
        simp only [findLocalCenter.visit, h, if_true, wrapInt32_add]
      rw [List.foldl_cons, hstep, ih]
      simp [h, add_assoc]
    · have hstep : findLocalCenter.visit m i ⟨wrapInt32 x, wrapInt32 y, wrapInt32 c⟩ j =
          ⟨wrapInt32 x, wrapInt32 y, wrapInt32 c⟩ := by
        simp only [findLocalCenter.visit, h, if_false]
      rw [List.foldl_cons, hstep, ih]
      simp [h]

theorem foldl_row (m : Mat) (p : Point) (size : Int) (is : List Int) (x y c : Int) :
    is.foldl (findLocalCenter.row m p size) ⟨wrapInt32 x, wrapInt32 y, wrapInt32 c⟩ =
      ⟨wrapInt32 (x + (is.map (fun i => ∑ j in Finset.Ico (max 0 (p.x - size))
          (min (m.cols : Int) (p.x + size)), if m.px i j = 0 then j else 0)).sum),
       wrapInt32 (y + (is.map (fun i => ∑ j in Finset.Ico (max 0 (p.x - size))
          (min (m.cols : Int) (p.x + size)), if m.px i j = 0 then i else 0)).sum),
       wrapInt32 (c + (is.map (fun i => ∑ j in Finset.Ico (max 0 (p.x - size))
          (min (m.cols : Int) (p.x + size)), if m.px i j = 0 then (1 : Int) else 0)).sum)⟩ := by
  induction is generalizing x y c with
  | nil => simp
  | cons i is ih =>
    have hstep : findLocalCenter.row m p size ⟨wrapInt32 x, wrapInt32 y, wrapInt32 c⟩ i =
        ⟨wrapInt32 (x + ∑ j in Finset.Ico (max 0 (p.x - size))
            (min (m.cols : Int) (p.x + size)), if m.px i j = 0 then j else 0),
         wrapInt32 (y + ∑ j in Finset.Ico (max 0 (p.x - size))
            (min (m.cols : Int) (p.x + size)), if m.px i j = 0 then i else 0),
         wrapInt32 (c + ∑ j in Finset.Ico (max 0 (p.x - size))
            (min (m.cols : Int) (p.x + size)), if m.px i j = 0 then (1 : Int) else 0)⟩ := by
      unfold findLocalCenter.row
      rw [foldl_visit]
      simp only [sum_map_loopRange]
    rw [List.foldl_cons, hstep, ih]
    simp only [List.map_cons, List.sum_cons, add_assoc]

theorem sum_window (m : Mat) (p : Point) (size : Int) (f : Int × Int → Int) :
    (∑ i in Finset.Ico (max 0 (p.y - size)) (min (m.rows : Int) (p.y + size)),
      ∑ j in Finset.Ico (max 0 (p.x - size)) (min (m.cols : Int) (p.x + size)),
        if m.px i j = 0 then f (i, j) else 0) = ∑ q in windowMarkers m p size, f q := by
  unfold windowMarkers
  rw [Finset.sum_filter, Finset.sum_product]

/-- The accumulators after the loops are the sums over the marker pixels of the window,
reduced to the range of `int`. -/
theorem sums_eq (m : Mat) (p : Point) (size : Int) :
    findLocalCenter.sums m p size =
      ⟨wrapInt32 (∑ q in windowMarkers m p size, q.2),
       wrapInt32 (∑ q in windowMarkers m p size, q.1),
       wrapInt32 (windowMarkers m p size).card⟩ := by
  unfold findLocalCenter.sums
  have h₀ : (⟨0, 0, 0⟩ : CenterAcc) = ⟨wrapInt32 0, wrapInt32 0, wrapInt32 0⟩ := by decide
  rw [h₀, foldl_row]
  simp only [sum_map_loopRange, zero_add]
  rw [sum_window m p size (fun q => q.2), sum_window m p size (fun q => q.1),
    sum_window m p size (fun _ => 1)]
  simp

theorem sum_cols_nonneg (m : Mat) (p : Point) (size : Int) :
    0 ≤ ∑ q in windowMarkers m p size, q.2 := by
  apply Finset.sum_nonneg
  rintro ⟨i, j⟩ hq
  simp only [windowMarkers, Finset.mem_filter, Finset.mem_product, Finset.mem_Ico] at hq
  have := hq.1.2.1
  simp only
  omega

theorem sum_rows_nonneg (m : Mat) (p : Point) (size : Int) :
    0 ≤ ∑ q in windowMarkers m p size, q.1 := by
  apply Finset.sum_nonneg
  rintro ⟨i, j⟩ hq
  simp only [windowMarkers, Finset.mem_filter, Finset.mem_product, Finset.mem_Ico] at hq
  have := hq.1.1.1
  simp only
  omega

/-- With at least one marker in the window and the three accumulators below `2^31`, no
addition wraps and the result is the truncated mean. -/
theorem findLocalCenter_mean (m : Mat) (p : Point) (size : Int)
    (h : ∃ i j, max 0 (p.y - size) ≤ i ∧ i < min (m.rows : Int) (p.y + size) ∧
      max 0 (p.x - size) ≤ j ∧ j < min (m.cols : Int) (p.x + size) ∧ m.px i j = 0)
    (hx : ∑ q in windowMarkers m p size, q.2 < 2147483648)
    (hy : ∑ q in windowMarkers m p size, q.1 < 2147483648)
    (hc : ((windowMarkers m p size).card : Int) < 2147483648) :
    findLocalCenter m p size =
      ⟨(∑ q in windowMarkers m p size, q.2).tdiv (windowMarkers m p size).card,
       (∑ q in windowMarkers m p size, q.1).tdiv (windowMarkers m p size).card⟩ := by
  obtain ⟨i, j, h1, h2, h3, h4, h5⟩ := h
  have hmem : (i, j) ∈ windowMarkers m p size := by
    simp [windowMarkers, h1, h2, h3, h4, h5]
  have hcard : ((windowMarkers m p size).card : Int) ≠ 0 := by
    have := Finset.card_pos.mpr ⟨_, hmem⟩
    omega
  unfold findLocalCenter
  simp only [sums_eq]
  rw [wrapInt32_of_range _ (sum_cols_nonneg m p size) hx,
    wrapInt32_of_range _ (sum_rows_nonneg m p size) hy,
    wrapInt32_of_range _ (Int.natCast_nonneg _) hc, if_neg hcard]

theorem scanList_full (m : Mat) (ps : List Point) (res : List Point) (h : res.length ≥ 2) :
    scanList m ps res = res := by
  cases ps with
  | nil => rfl
  | cons q ps => simp [scanList, h]

theorem scanRow_eq_scanList (m : Mat) (i : Int) (js : List Int) (res : List Point)
    (h : res.length < 2) :
    trackGlints.scanRow m i js res = scanList m (js.map (fun j => (⟨j, i⟩ : Point))) res := by
  induction js generalizing res with
  | nil => rfl
  | cons j js ih =>
    have hlen : ¬ res.length ≥ 2 := by omega
    simp only [List.map_cons, trackGlints.scanRow, scanList, hlen, if_false]
    by_cases hpx : m.px i j = 0
    · simp only [hpx, if_true]
      cases res with
      | nil => exact ih [⟨j, i⟩] (by simp)
      | cons r0 rest =>
        by_cases hfar : j > r0.x + kFirstGlintXShadow ∨ j < r0.x - kFirstGlintXShadow
        · simp only [hfar, if_true]
        · simp only [hfar, if_false]
          exact ih (r0 :: rest) h
    · simp only [hpx, if_false]
      exact ih res h

theorem scanList_append (m : Mat) (ps₁ ps₂ : List Point) (res : List Point) :
    scanList m (ps₁ ++ ps₂) res = scanList m ps₂ (scanList m ps₁ res) := by
  induction ps₁ generalizing res with
  | nil => rfl
  | cons q ps ih =>
    by_cases hlen : res.length ≥ 2
    · simp only [List.cons_append, scanList, hlen, if_true]
      exact (scanList_full m ps₂ res hlen).symm
    · simp only [List.cons_append, scanList, hlen, if_false]
      by_cases hpx : m.px q.y q.x = 0
      · simp only [hpx, if_true]
        cases res with
        | nil => exact ih [q]
        | cons r0 rest =>
          by_cases hfar : q.x > r0.x + kFirstGlintXShadow ∨ q.x < r0.x - kFirstGlintXShadow
          · simp only [hfar, if_true]
            exact (scanList_full m ps₂ _ (by simp)).symm
          · simp only [hfar, if_false]
            exact ih (r0 :: rest)
      · simp only [hpx, if_false]
        exact ih res

theorem scanRows_eq_scanList (m : Mat) (is : List Int) (res : List Point) :
    trackGlints.scanRows m is res =
      scanList m (is.flatMap
        (fun i => (loopRange 0 (m.cols : Int)).map (fun j => (⟨j, i⟩ : Point)))) res := by
  induction is generalizing res with
  | nil => rfl
  | cons i is ih =>
    by_cases hlen : res.length ≥ 2
    · rw [scanList_full m _ res hlen]
      simp [trackGlints.scanRows, hlen]
    · simp only [trackGlints.scanRows, hlen, if_false, List.flatMap_cons]
      rw [ih, scanList_append, scanRow_eq_scanList m i _ res (by omega)]

theorem scan_eq_scanList (m : Mat) : trackGlints.scan m = scanList m (raster m) [] :=
  scanRows_eq_scanList m _ []

theorem scanList_no_marker (m : Mat) (l : List Point) (h : ∀ q ∈ l, m.px q.y q.x ≠ 0) :
    scanList m l [] = [] := by
  induction l with
  | nil => rfl
  | cons q l ih =>
    have hq : m.px q.y q.x ≠ 0 := h q (List.mem_cons_self _ _)
    have ih' := ih (fun r hr => h r (List.mem_cons_of_mem _ hr))
    simp [scanList, hq, ih']

theorem scanList_in_shadow (m : Mat) (c : Point) (l : List Point)
    (h : ∀ q ∈ l, m.px q.y q.x = 0 → ¬ OutsideShadow c.x q.x) :
    scanList m l [c] = [c] := by
  induction l with
  | nil => rfl
  | cons q l ih =>
    have ih' := ih (fun r hr => h r (List.mem_cons_of_mem _ hr))
    have hq := h q (List.mem_cons_self _ _)
    by_cases hpx : m.px q.y q.x = 0
    · have hfar : ¬ (q.x > c.x + kFirstGlintXShadow ∨ q.x < c.x - kFirstGlintXShadow) := by
        simpa [OutsideShadow, kFirstGlintXShadow] using hq hpx
      simp [scanList, hpx, hfar, ih']
    · simp [scanList, hpx, ih']

theorem scanList_first (m : Mat) (c : Point) (l : List Point) (h : m.px c.y c.x = 0) :
    scanList m (c :: l) [] = scanList m l [c] := by
  simp [scanList, h]

theorem scanList_second (m : Mat) (c d : Point) (l : List Point) (h : m.px d.y d.x = 0)
    (hfar : OutsideShadow c.x d.x) : scanList m (d :: l) [c] = [c, d] := by
  have hfar' : d.x > c.x + kFirstGlintXShadow ∨ d.x < c.x - kFirstGlintXShadow := by
    simpa [OutsideShadow, kFirstGlintXShadow] using hfar
  simp [scanList, h, hfar']

/-- Either no element of a list satisfies `P`, or the list splits at its first element
satisfying `P`. -/
theorem split_at_first {α : Type} (P : α → Prop) (l : List α) :
    (∀ q ∈ l, ¬ P q) ∨
      ∃ l₁ c l₂, l = l₁ ++ c :: l₂ ∧ (∀ q ∈ l₁, ¬ P q) ∧ P c := by
  induction l with
  | nil => exact Or.inl (by simp)
  | cons a l ih =>
    by_cases ha : P a
    · exact Or.inr ⟨[], a, l, rfl, by simp, ha⟩
    · rcases ih with h | ⟨l₁, c, l₂, rfl, h₁, hc⟩
      · left
        intro q hq
        rcases List.mem_cons.mp hq with rfl | hq
        · exact ha
        · exact h q hq
      · right
        refine ⟨a :: l₁, c, l₂, rfl, ?_, hc⟩
        intro q hq
        rcases List.mem_cons.mp hq with rfl | hq
        · exact ha
        · exact h₁ q hq

theorem mem_raster (m : Mat) (q : Point) :
    q ∈ raster m ↔ 0 ≤ q.y ∧ q.y < (m.rows : Int) ∧ 0 ≤ q.x ∧ q.x < (m.cols : Int) := by
  unfold raster
  simp only [List.mem_flatMap, List.mem_map, mem_loopRange]
  constructor
  · rintro ⟨i, ⟨hi1, hi2⟩, j, ⟨hj1, hj2⟩, rfl⟩
    exact ⟨hi1, hi2, hj1, hj2⟩
  · rintro ⟨h1, h2, h3, h4⟩
    exact ⟨q.y, ⟨h1, h2⟩, q.x, ⟨h3, h4⟩, rfl⟩

theorem pairwise_loopRange (lo hi : Int) : (loopRange lo hi).Pairwise (fun a b => a < b) := by
  unfold loopRange
  rw [List.pairwise_map]
  exact (List.pairwise_lt_range _).imp (fun h => by omega)

theorem pairwise_raster (m : Mat) : (raster m).Pairwise RasterBefore := by
  unfold raster
  rw [List.pairwise_flatMap]
  constructor
  · intro i _
    rw [List.pairwise_map]
    exact (pairwise_loopRange _ _).imp (fun h => Or.inr ⟨rfl, h⟩)
  · refine (pairwise_loopRange _ _).imp ?_
    intro a b hab x hx y hy
    simp only [List.mem_map] at hx hy
    obtain ⟨_, _, rfl⟩ := hx
    obtain ⟨_, _, rfl⟩ := hy
    exact Or.inl hab

theorem isMarker_iff (m : Mat) (q : Point) :
    IsMarker m q ↔ q ∈ raster m ∧ m.px q.y q.x = 0 := by
  rw [mem_raster]
  unfold IsMarker
  tauto

theorem not_outsideShadow_self (x : Int) : ¬ OutsideShadow x x := by
  unfold OutsideShadow
  omega

/-- The three possible outcomes of the scan, each with the condition on the image that
produces it. -/
theorem scan_cases (m : Mat) :
    ((∀ q, ¬ IsMarker m q) ∧ trackGlints.scan m = []) ∨
    (∃ c, IsFirstMarker m (fun _ => True) c ∧
      (∀ q, IsMarker m q → ¬ OutsideShadow c.x q.x) ∧ trackGlints.scan m = [c]) ∨
    (∃ c d, IsFirstMarker m (fun _ => True) c ∧
      IsFirstMarker m (fun q => OutsideShadow c.x q.x) d ∧ trackGlints.scan m = [c, d]) := by
  rw [scan_eq_scanList]
  have hpw := pairwise_raster m
  rcases split_at_first (fun q => m.px q.y q.x = 0) (raster m) with h | ⟨l₁, c, l₂, hl, h₁, hc⟩
  · left
    refine ⟨?_, scanList_no_marker m _ h⟩
    intro q hq
    rw [isMarker_iff] at hq
    exact h q hq.1 hq.2
  · right
    have hcm : IsMarker m c := by
      rw [isMarker_iff, hl]
      exact ⟨by simp, hc⟩
    rw [hl] at hpw
    have hpw₂ := (List.pairwise_append.mp hpw).2.1
    have hc_before : ∀ q ∈ l₂, RasterBefore c q := (List.pairwise_cons.mp hpw₂).1
    have hfirst : IsFirstMarker m (fun _ => True) c := by
      refine ⟨hcm, trivial, ?_⟩
      intro q hq _
      rw [isMarker_iff, hl] at hq
      rcases List.mem_append.mp hq.1 with hq₁ | hq₂
      · exact absurd hq.2 (h₁ q hq₁)
      · rcases List.mem_cons.mp hq₂ with rfl | hq₂
        · exact Or.inl rfl
        · exact Or.inr (hc_before q hq₂)
    have hscan : scanList m (raster m) [] = scanList m l₂ [c] := by
      rw [hl, scanList_append, scanList_no_marker m l₁ h₁, scanList_first m c l₂ hc]
    rw [hscan]
    rcases split_at_first (fun q => m.px q.y q.x = 0 ∧ OutsideShadow c.x q.x) l₂ with
      h₂ | ⟨l₃, d, l₄, hl₂, h₃, hd⟩
    · left
      refine ⟨c, hfirst, ?_, scanList_in_shadow m c l₂ (fun q hq hpx hfar => h₂ q hq ⟨hpx, hfar⟩)⟩
      intro q hq hfar
      rw [isMarker_iff, hl] at hq
      rcases List.mem_append.mp hq.1 with hq₁ | hq₂
      · exact h₁ q hq₁ hq.2
      · rcases List.mem_cons.mp hq₂ with rfl | hq₂
        · exact not_outsideShadow_self _ hfar
        · exact h₂ q hq₂ ⟨hq.2, hfar⟩
    · right
      refine ⟨c, d, hfirst, ?_, ?_⟩
      · have hdm : IsMarker m d := by
          rw [isMarker_iff, hl, hl₂]
          exact ⟨by simp, hd.1⟩
        refine ⟨hdm, hd.2, ?_⟩
        intro q hq hfar
        rw [isMarker_iff, hl, hl₂] at hq
        have hpw₃ := (List.pairwise_cons.mp hpw₂).2
        rw [hl₂] at hpw₃
        have hd_before : ∀ q ∈ l₄, RasterBefore d q :=
          (List.pairwise_cons.mp (List.pairwise_append.mp hpw₃).2.1).1
        rcases List.mem_append.mp hq.1 with hq₁ | hq₂
        · exact absurd hq.2 (h₁ q hq₁)
        · rcases List.mem_cons.mp hq₂ with rfl | hq₂
          · exact absurd hfar (not_outsideShadow_self _)
          · rcases List.mem_append.mp hq₂ with hq₃ | hq₄
            · exact absurd ⟨hq.2, hfar⟩ (h₃ q hq₃)
            · rcases List.mem_cons.mp hq₄ with rfl | hq₄
              · exact Or.inl rfl
              · exact Or.inr (hd_before q hq₄)
      · rw [hl₂, scanList_append,
          scanList_in_shadow m c l₃ (fun q hq hpx hfar => h₃ q hq ⟨hpx, hfar⟩),
          scanList_second m c d l₄ hd.1 hd.2]

/-! ## Ordering -/

theorem insert_perm (p : Point) (l : List Point) : (sortByX.insert p l).Perm (p :: l) := by
  induction l with
  | nil => exact List.Perm.refl _
  | cons q qs ih =>
    unfold sortByX.insert
    split
    · exact List.Perm.refl _
    · exact (List.Perm.cons q ih).trans (List.Perm.swap p q qs)

theorem insert_sorted (p : Point) (l : List Point) (h : SortedByX l) :
    SortedByX (sortByX.insert p l) := by
  unfold SortedByX at *
  induction l with
  | nil => simp [sortByX.insert]
  | cons q qs ih =>
    unfold sortByX.insert
    have hq := List.pairwise_cons.mp h
    split
    · rename_i hlt
      refine List.pairwise_cons.mpr ⟨?_, h⟩
      intro r hr
      rcases List.mem_cons.mp hr with rfl | hr
      · omega
      · have := hq.1 r hr
        omega
    · rename_i hlt
      refine List.pairwise_cons.mpr ⟨?_, ih hq.2⟩
      intro r hr
      rcases List.mem_cons.mp ((insert_perm p qs).subset hr) with rfl | hr
      · omega
      · exact hq.1 r hr

theorem foldl_insert (l acc : List Point) (h : SortedByX acc) :
    SortedByX (l.foldl (fun acc p => sortByX.insert p acc) acc) ∧
      (l.foldl (fun acc p => sortByX.insert p acc) acc).Perm (acc ++ l) := by
  induction l generalizing acc with
  | nil => simpa using h
  | cons p l ih =>
    obtain ⟨h₁, h₂⟩ := ih (sortByX.insert p acc) (insert_sorted p acc h)
    refine ⟨h₁, h₂.trans ?_⟩
    have h₃ : (sortByX.insert p acc ++ l).Perm ((p :: acc) ++ l) :=
      List.Perm.append_right l (insert_perm p acc)
    refine h₃.trans ?_
    simpa using List.perm_middle.symm

theorem sortByX_sorted (l : List Point) : SortedByX (sortByX l) :=
  (foldl_insert l [] List.Pairwise.nil).1

theorem sortByX_perm (l : List Point) : (sortByX l).Perm l := by
  simpa using (foldl_insert l [] List.Pairwise.nil).2

theorem length_onBinarized (m : Mat) :
    (trackGlints.onBinarized m).length = (trackGlints.scan m).length := by
  unfold trackGlints.onBinarized
  rw [(sortByX_perm _).length_eq]
  simp [trackGlints.refine]

theorem length_scan_le (m : Mat) : (trackGlints.scan m).length ≤ 2 := by
  rcases scan_cases m with ⟨_, h⟩ | ⟨c, _, _, h⟩ | ⟨c, d, _, _, h⟩ <;> simp [h]

/-! ## Blobs -/

theorem firstMarker_unique (m : Mat) (c c' : Point)
    (h : IsFirstMarker m (fun _ => True) c) (h' : IsFirstMarker m (fun _ => True) c') :
    c = c' := by
  rcases h.2.2 c' h'.1 trivial with h₁ | h₁
  · exact h₁
  · rcases h'.2.2 c h.1 trivial with h₂ | h₂
    · exact h₂.symm
    · unfold RasterBefore at h₁ h₂
      omega

/-- With two blobs covering all markers and separated by more than the shadow distance,
the scan finds two candidates. -/
theorem scan_two_blobs (m : Mat) (A B : Set Point) (hA : IsBlob m A) (hB : IsBlob m B)
    (hcover : ∀ q, IsMarker m q → q ∈ A ∨ q ∈ B) (hsep : HSeparated A B) :
    (trackGlints.scan m).length = 2 := by
  obtain ⟨⟨a, ha⟩, hAm⟩ := hA
  obtain ⟨⟨b, hb⟩, hBm⟩ := hB
  rcases scan_cases m with ⟨h, _⟩ | ⟨c, hc, hin, _⟩ | ⟨c, d, _, _, h⟩
  · exact absurd (hAm a ha) (h a)
  · exfalso
    rcases hcover c hc.1 with hcA | hcB
    · exact hin b (hBm b hb) (hsep c hcA b hb)
    · have h₁ := hsep a ha c hcB
      have h₂ := hin a (hAm a ha)
      unfold OutsideShadow at h₁ h₂
      omega
  · simp [h]

/-- With three blobs pairwise separated by more than the shadow distance, the scan
finds two candidates. -/
theorem scan_three_blobs (m : Mat) (A B C : Set Point) (hA : IsBlob m A) (hB : IsBlob m B)
    (hC : IsBlob m C) (hAB : HSeparated A B) (hAC : HSeparated A C) (hBC : HSeparated B C) :
    (trackGlints.scan m).length = 2 := by
  obtain ⟨⟨a, ha⟩, hAm⟩ := hA
  obtain ⟨⟨b, hb⟩, hBm⟩ := hB
  obtain ⟨⟨c, hc⟩, hCm⟩ := hC
  rcases scan_cases m with ⟨h, _⟩ | ⟨c₀, _, hin, _⟩ | ⟨c₀, d, _, _, h⟩
  · exact absurd (hAm a ha) (h a)
  · exfalso
    have h₁ := hin a (hAm a ha)
    have h₂ := hin b (hBm b hb)
    have h₃ := hin c (hCm c hc)
    have h₄ := hAB a ha b hb
    have h₅ := hAC a ha c hc
    have h₆ := hBC b hb c hc
    unfold OutsideShadow at h₁ h₂ h₃ h₄ h₅ h₆
    omega
  · simp [h]

/-! ## Filled rectangular blobs -/

theorem two_mul_sum_range (lo : Int) (n : Nat) :
    2 * ((List.range n).map (fun (k : Nat) => lo + (k : Int))).sum =
      (n : Int) * (2 * lo + n - 1) := by
  induction n with
  | zero => simp
  | succ n ih =>
    rw [List.range_succ, List.map_append, List.sum_append, mul_add, ih]
    simp only [List.map_cons, List.map_nil, List.sum_cons, List.sum_nil]
    push_cast
    ring

theorem two_mul_sum_Ico (a b : Int) (h : a ≤ b) :
    2 * ∑ j in Finset.Ico a b, j = (b - a) * (a + b - 1) := by
  have h₁ := sum_map_loopRange a b (fun j => j)
  rw [List.map_id'] at h₁
  rw [← h₁]
  unfold loopRange
  rw [two_mul_sum_range]
  have h₂ : (((b - a).toNat : Nat) : Int) = b - a := Int.toNat_of_nonneg (by omega)
  rw [h₂]
  ring

theorem windowMarkers_filled (m : Mat) (p : Point) (size x0 x1 y0 y1 : Int)
    (hblob : IsFilledBlob m x0 x1 y0 y1)
    (hx₀ : p.x - size ≤ x0) (hx₁ : x1 < p.x + size)
    (hy₀ : p.y - size ≤ y0) (hy₁ : y1 < p.y + size) :
    windowMarkers m p size = Finset.Ico y0 (y1 + 1) ×ˢ Finset.Ico x0 (x1 + 1) := by
  obtain ⟨h₁, h₂, h₃, h₄, h₅, h₆, hpx⟩ := hblob
  ext ⟨i, j⟩
  simp only [windowMarkers, Finset.mem_filter, Finset.mem_product, Finset.mem_Ico]
  constructor
  · rintro ⟨⟨⟨hi₁, hi₂⟩, hj₁, hj₂⟩, hz⟩
    have := (hpx i j (by omega) (by omega) (by omega) (by omega)).mp hz
    omega
  · rintro ⟨⟨hi₁, hi₂⟩, hj₁, hj₂⟩
    refine ⟨⟨⟨by omega, by omega⟩, by omega, by omega⟩, ?_⟩
    exact (hpx i j (by omega) (by omega) (by omega) (by omega)).mpr (by omega)

/-- The coordinate sums and the number of marker pixels of a filled blob that lies
inside the window. -/
theorem sums_filled (m : Mat) (p : Point) (size x0 x1 y0 y1 : Int)
    (hblob : IsFilledBlob m x0 x1 y0 y1)
    (hx₀ : p.x - size ≤ x0) (hx₁ : x1 < p.x + size)
    (hy₀ : p.y - size ≤ y0) (hy₁ : y1 < p.y + size) :
    2 * (∑ q in windowMarkers m p size, q.2) =
      (y1 + 1 - y0) * (x1 + 1 - x0) * (x0 + x1) ∧
    2 * (∑ q in windowMarkers m p size, q.1) =
      (y1 + 1 - y0) * (x1 + 1 - x0) * (y0 + y1) ∧
    ((windowMarkers m p size).card : Int) = (y1 + 1 - y0) * (x1 + 1 - x0) := by
  have hW := windowMarkers_filled m p size x0 x1 y0 y1 hblob hx₀ hx₁ hy₀ hy₁
  obtain ⟨h₁, h₂, h₃, h₄, h₅, h₆, hpx⟩ := hblob
  rw [hW]
  have hcard : ((Finset.Ico y0 (y1 + 1) ×ˢ Finset.Ico x0 (x1 + 1)).card : Int) =
      (y1 + 1 - y0) * (x1 + 1 - x0) := by
    rw [Finset.card_product, Int.card_Ico, Int.card_Ico]
    push_cast
    rw [Int.toNat_of_nonneg (by omega), Int.toNat_of_nonneg (by omega)]
  have hxs : (∑ q in Finset.Ico y0 (y1 + 1) ×ˢ Finset.Ico x0 (x1 + 1), q.2) =
      (y1 + 1 - y0) * ∑ j in Finset.Ico x0 (x1 + 1), j := by
    rw [Finset.sum_product]
    simp only [Finset.sum_const, Int.card_Ico, nsmul_eq_mul]
    rw [Int.toNat_of_nonneg (by omega)]
  have hys : (∑ q in Finset.Ico y0 (y1 + 1) ×ˢ Finset.Ico x0 (x1 + 1), q.1) =
      (x1 + 1 - x0) * ∑ i in Finset.Ico y0 (y1 + 1), i := by
    rw [Finset.sum_product]
    simp only [Finset.sum_const, Int.card_Ico, nsmul_eq_mul]
    rw [Int.toNat_of_nonneg (by omega), Finset.mul_sum]
  have hgx := two_mul_sum_Ico x0 (x1 + 1) (by omega)
  have hgy := two_mul_sum_Ico y0 (y1 + 1) (by omega)
  refine ⟨?_, ?_, hcard⟩
  · rw [hxs]
    linear_combination (y1 + 1 - y0) * hgx
  · rw [hys]
    linear_combination (x1 + 1 - x0) * hgy

/-- The value of `findLocalCenter` in terms of the marker pixels of the window, with the
wrap-around of the three accumulators. -/
theorem findLocalCenter_wrapped (m : Mat) (p : Point) (size : Int) :
    findLocalCenter m p size =
      if wrapInt32 (windowMarkers m p size).card = 0 then ⟨0, 0⟩
      else
        ⟨(wrapInt32 (∑ q in windowMarkers m p size, q.2)).tdiv
            (wrapInt32 (windowMarkers m p size).card),
         (wrapInt32 (∑ q in windowMarkers m p size, q.1)).tdiv
            (wrapInt32 (windowMarkers m p size).card)⟩ := by
  unfold findLocalCenter
  simp only [sums_eq]

theorem sum_map_const_of_forall {α : Type} (l : List α) (f : α → Nat) (c : Nat)
    (h : ∀ a ∈ l, f a = c) : (l.map f).sum = l.length * c := by
  induction l with
  | nil => simp
  | cons a l ih =>
    rw [List.map_cons, List.sum_cons, h a (List.mem_cons_self _ _),
      ih (fun b hb => h b (List.mem_cons_of_mem _ hb)), List.length_cons]
    ring

theorem clampIndex_bounds (k n : Int) (hn : 0 < n) :
    0 ≤ clampIndex k n ∧ clampIndex k n < n := by
  unfold clampIndex
  omega

theorem boxSum_uniform (m : Mat) (v : Nat)
    (h : ∀ i j, 0 ≤ i → i < (m.rows : Int) → 0 ≤ j → j < (m.cols : Int) → m.px i j = v)
    (i j : Int) (hr : 0 < (m.rows : Int)) (hc : 0 < (m.cols : Int)) :
    boxSum m i j = 121 * v := by
  unfold boxSum
  have hlen : (loopRange (-5) 6).length = 11 := by decide
  rw [sum_map_const_of_forall _ _ (11 * v), hlen]
  · ring
  · intro di _
    rw [sum_map_const_of_forall _ _ v, hlen]
    intro dj _
    have h₁ := clampIndex_bounds (i + di) (m.rows : Int) hr
    have h₂ := clampIndex_bounds (j + dj) (m.cols : Int) hc
    exact h _ _ h₁.1 h₁.2 h₂.1 h₂.2

theorem adaptiveThreshold_uniform (m : Mat) (v : Nat)
    (h : ∀ i j, 0 ≤ i → i < (m.rows : Int) → 0 ≤ j → j < (m.cols : Int) → m.px i j = v)
    (i j : Int) (hi₀ : 0 ≤ i) (hi₁ : i < (m.rows : Int)) (hj₀ : 0 ≤ j)
    (hj₁ : j < (m.cols : Int)) : (adaptiveThreshold m).px i j = 255 := by
  have hsum := boxSum_uniform m v h i j (by omega) (by omega)
  have hmean : localMean m i j = v := by
    unfold localMean
    rw [hsum]
    omega
  simp only [adaptiveThreshold]
  rw [hmean, h i j hi₀ hi₁ hj₀ hj₁, if_neg (by omega)]

theorem scan_no_marker (m : Mat) (h : ∀ q, ¬ IsMarker m q) : trackGlints.scan m = [] := by
  rcases scan_cases m with ⟨_, hs⟩ | ⟨c, hc, _, _⟩ | ⟨c, d, hc, _, _⟩
  · exact hs
  · exact absurd hc.1 (h c)
  · exact absurd hc.1 (h c)

/-! ## Specification claims -/

/-- Claim C3: the candidates picked by the scan loop of `trackGlints`.  The scan yields
no candidate iff the image has no marker pixel.  When it yields a first candidate `c`,
that is the first marker pixel in raster order; the scan stops at one candidate iff every
marker pixel's column is within 100 of `c.x`, and yields two iff some marker pixel's
column `j` has `j > c.x + 100` or `j < c.x - 100`.  The second candidate is the first
marker pixel in raster order with such a column.  There are never more than two. -/
theorem scan_candidates (m : Mat) :
    ((trackGlints.scan m).length = 0 ↔ ∀ q, ¬ IsMarker m q) ∧
    (∀ c, (trackGlints.scan m).head? = some c →
      IsFirstMarker m (fun _ => True) c ∧
      ((trackGlints.scan m).length = 1 ↔ ∀ q, IsMarker m q → ¬ OutsideShadow c.x q.x) ∧
      ((trackGlints.scan m).length = 2 ↔ ∃ q, IsMarker m q ∧ OutsideShadow c.x q.x)) ∧
    (∀ c d, trackGlints.scan m = [c, d] →
      IsFirstMarker m (fun q => OutsideShadow c.x q.x) d) ∧
    ((trackGlints.scan m).length = 0 ∨ (trackGlints.scan m).length = 1 ∨
      (trackGlints.scan m).length = 2) := by
  rcases scan_cases m with ⟨hno, h⟩ | ⟨c, hc, hin, h⟩ | ⟨c, d, hc, hd, h⟩
  · rw [h]
    refine ⟨by simpa using hno, by simp, by simp, by simp⟩
  · rw [h]
    refine ⟨?_, ?_, by simp, by simp⟩
    · simp only [List.length_singleton, one_ne_zero, false_iff, not_forall, not_not]
      exact ⟨c, hc.1⟩
    · intro c' hc'
      simp only [List.head?_cons, Option.some.injEq] at hc'
      subst hc'
      refine ⟨hc, by simpa using hin, ?_⟩
      simp only [List.length_singleton, OfNat.one_ne_ofNat, false_iff, not_exists, not_and]
      exact hin
  · rw [h]
    refine ⟨?_, ?_, ?_, by simp⟩
    · constructor
      · intro hlen
        simp at hlen
      · intro hno
        exact absurd hc.1 (hno c)
    · intro c' hc'
      simp only [List.head?_cons, Option.some.injEq] at hc'
      subst hc'
      refine ⟨hc, ?_, ?_⟩
      · simp only [List.length_cons, List.length_nil, zero_add, Nat.reduceAdd,
          OfNat.ofNat_ne_one, false_iff, not_forall]
        exact ⟨d, hd.1, not_not.mpr hd.2.1⟩
      · simp only [List.length_cons, List.length_nil, zero_add, Nat.reduceAdd, true_iff]
        exact ⟨d, hd.1, hd.2.1⟩
    · intro c' d' hcd
      simp only [List.cons.injEq, and_true] at hcd
      obtain ⟨rfl, rfl⟩ := hcd
      exact hd

/-- Claim C3 on a row with markers in columns 0 and 101: the candidates are `(0,0)` and
`(101,0)`, and `(101,0)` is the first marker pixel outside the shadow of column 0. -/
theorem scan_candidates_witness :
    trackGlints.scan imgTwo = [⟨0, 0⟩, ⟨101, 0⟩] ∧
    IsFirstMarker imgTwo (fun q => OutsideShadow (⟨0, 0⟩ : Point).x q.x) ⟨101, 0⟩ :=
  ⟨by decide, (scan_candidates imgTwo).2.2.1 ⟨0, 0⟩ ⟨101, 0⟩ (by decide)⟩

theorem isBlob_pixelAt (m : Mat) (j : Int) (h : IsMarker m ⟨j, 0⟩) : IsBlob m (pixelAt j) := by
  refine ⟨⟨⟨j, 0⟩, ⟨rfl, rfl⟩⟩, ?_⟩
  rintro ⟨x, y⟩ ⟨hy, hx⟩
  simp only at hx hy
  subst hx hy
  exact h

theorem hSeparated_pixelAt (a b : Int) (h : OutsideShadow a b) :
    HSeparated (pixelAt a) (pixelAt b) := by
  rintro p ⟨_, hp⟩ q ⟨_, hq⟩
  rw [hp, hq]
  exact h

/-- Claim C4: `trackGlints` returns at most 2 points for every image and every
binarization; and on a binarized image holding three (hence on one holding more than
two) marker blobs pairwise separated horizontally by more than 100 columns, it returns
exactly 2 points. -/
theorem trackGlints_at_most_two :
    (∀ (binarize : Mat → Mat) (m : Mat), (trackGlints binarize m).length ≤ 2) ∧
    (∀ (m : Mat) (A B C : Set Point), IsBlob m A → IsBlob m B → IsBlob m C →
      HSeparated A B → HSeparated A C → HSeparated B C →
      (trackGlints.onBinarized m).length = 2) := by
  constructor
  · intro binarize m
    unfold trackGlints
    rw [length_onBinarized]
    exact length_scan_le _
  · intro m A B C hA hB hC hAB hAC hBC
    rw [length_onBinarized]
    exact scan_three_blobs m A B C hA hB hC hAB hAC hBC

/-- Claim C4 on a row with markers in columns 0, 101 and 202: three separated blobs,
two points returned. -/
theorem trackGlints_at_most_two_witness :
    (IsBlob imgThree (pixelAt 0) ∧ IsBlob imgThree (pixelAt 101) ∧
      IsBlob imgThree (pixelAt 202) ∧ HSeparated (pixelAt 0) (pixelAt 101) ∧
      HSeparated (pixelAt 0) (pixelAt 202) ∧ HSeparated (pixelAt 101) (pixelAt 202)) ∧
    (trackGlints.onBinarized imgThree).length = 2 :=
  have hA : IsBlob imgThree (pixelAt 0) :=
    isBlob_pixelAt _ _ (by decide)
  have hB : IsBlob imgThree (pixelAt 101) :=
    isBlob_pixelAt _ _ (by decide)
  have hC : IsBlob imgThree (pixelAt 202) :=
    isBlob_pixelAt _ _ (by decide)
  have hAB : HSeparated (pixelAt 0) (pixelAt 101) := hSeparated_pixelAt _ _ (by decide)
  have hAC : HSeparated (pixelAt 0) (pixelAt 202) := hSeparated_pixelAt _ _ (by decide)
  have hBC : HSeparated (pixelAt 101) (pixelAt 202) := hSeparated_pixelAt _ _ (by decide)
  ⟨⟨hA, hB, hC, hAB, hAC, hBC⟩,
    trackGlints_at_most_two.2 imgThree _ _ _ hA hB hC hAB hAC hBC⟩

/-- Claim C5: for every image and binarization, the points returned by `trackGlints`
are in ascending order of `x` and are a permutation of the refined candidates, that is
of `findLocalCenter` applied with neighbourhood 100 to each raw candidate of the scan. -/
theorem trackGlints_sorted_perm (binarize : Mat → Mat) (m : Mat) :
    SortedByX (trackGlints binarize m) ∧
    (trackGlints binarize m).Perm
      ((trackGlints.scan (binarize m)).map (fun p => findLocalCenter (binarize m) p 100)) :=
  ⟨sortByX_sorted _, sortByX_perm _⟩

/-- Claim C6: on a binarized image whose marker pixels form exactly two blobs, every
column of one more than 100 away from every column of the other, `trackGlints` returns
exactly 2 points, in ascending order of `x`. -/
theorem trackGlints_two_blobs (m : Mat) (A B : Set Point) (hA : IsBlob m A)
    (hB : IsBlob m B) (hcover : ∀ q, IsMarker m q → q ∈ A ∨ q ∈ B)
    (hsep : HSeparated A B) :
    (trackGlints.onBinarized m).length = 2 ∧ SortedByX (trackGlints.onBinarized m) :=
  ⟨(length_onBinarized m).trans (scan_two_blobs m A B hA hB hcover hsep), sortByX_sorted _⟩

theorem imgTwo_cover (q : Point) (h : IsMarker imgTwo q) : q ∈ pixelAt 0 ∨ q ∈ pixelAt 101 := by
  obtain ⟨h₁, h₂, _, _, h₅⟩ := h
  have hy : q.y = 0 := by
    simp only [imgTwo] at h₂
    omega
  simp only [imgTwo] at h₅
  split at h₅
  · rename_i hx
    rcases hx with hx | hx
    · exact Or.inl ⟨hy, hx⟩
    · exact Or.inr ⟨hy, hx⟩
  · simp at h₅

/-- Claim C6 on a row with markers in columns 0 and 101. -/
theorem trackGlints_two_blobs_witness :
    (IsBlob imgTwo (pixelAt 0) ∧ IsBlob imgTwo (pixelAt 101) ∧
      (∀ q, IsMarker imgTwo q → q ∈ pixelAt 0 ∨ q ∈ pixelAt 101) ∧
      HSeparated (pixelAt 0) (pixelAt 101)) ∧
    (trackGlints.onBinarized imgTwo).length = 2 ∧ SortedByX (trackGlints.onBinarized imgTwo) :=
  have hA : IsBlob imgTwo (pixelAt 0) :=
    isBlob_pixelAt _ _ (by decide)
  have hB : IsBlob imgTwo (pixelAt 101) :=
    isBlob_pixelAt _ _ (by decide)
  have hAB : HSeparated (pixelAt 0) (pixelAt 101) := hSeparated_pixelAt _ _ (by decide)
  ⟨⟨hA, hB, imgTwo_cover, hAB⟩, trackGlints_two_blobs imgTwo _ _ hA hB imgTwo_cover hAB⟩

theorem imgShadow_blobB : IsBlob imgShadow shadowB := by
  refine ⟨⟨⟨40, 0⟩, by simp [shadowB]⟩, ?_⟩
  rintro ⟨x, y⟩ ⟨hy, hx₁, hx₂⟩
  simp only at hy hx₁ hx₂
  subst hy
  refine ⟨le_refl _, ?_, ?_, ?_, ?_⟩
  · simp [imgShadow]
  · simp only
    omega
  · simp only [imgShadow]
    omega
  · simp [imgShadow, hx₁, hx₂]

theorem imgShadow_cover (q : Point) (h : IsMarker imgShadow q) :
    q ∈ pixelAt 0 ∨ q ∈ shadowB ∨ q ∈ pixelAt 200 := by
  obtain ⟨h₁, h₂, _, _, h₅⟩ := h
  have hy : q.y = 0 := by
    simp only [imgShadow] at h₂
    omega
  simp only [imgShadow] at h₅
  split at h₅
  · rename_i hx
    rcases hx with hx | hx | hx
    · exact Or.inl ⟨hy, hx⟩
    · exact Or.inr (Or.inl ⟨hy, hx.1, hx.2⟩)
    · exact Or.inr (Or.inr ⟨hy, hx⟩)
  · simp at h₅

theorem imgShadow_first : ∃ c, c ∈ pixelAt 0 ∧ IsFirstMarker imgShadow (fun _ => True) c := by
  refine ⟨⟨0, 0⟩, ⟨rfl, rfl⟩, by decide, trivial, ?_⟩
  rintro ⟨x, y⟩ ⟨h₁, h₂, h₃, _, _⟩ _
  simp only [imgShadow] at h₁ h₂ h₃
  have hy : y = 0 := by omega
  subst hy
  by_cases hx : x = 0
  · subst hx
    exact Or.inl rfl
  · exact Or.inr (Or.inr ⟨rfl, by simp only; omega⟩)

theorem imgShadow_disjoint : ∀ q ∈ pixelAt 0, q ∉ shadowB := by
  rintro q ⟨_, hx⟩ ⟨_, hx₁, _⟩
  omega

theorem imgShadow_within : WithinShadow (pixelAt 0) shadowB := by
  rintro a ⟨_, ha⟩ b ⟨_, hb₁, hb₂⟩
  rw [ha, abs_lt]
  omega

theorem imgShadow_result : trackGlints.onBinarized imgShadow = [⟨47, 0⟩, ⟨200, 0⟩] := by
  decide

/-- Claim C7 fails as stated: on the row `imgShadow` the three blobs are the pixel in
column 0, the run in columns 40..60 (closer than 100 columns to the first) and the pixel
in column 200 (beyond 100 columns), yet the points returned are `(47,0)` and `(200,0)`:
the first lies in the second blob, and no returned point lies in the first blob. -/
theorem shadow_blobs_refined_counterexample :
    (IsBlob imgShadow (pixelAt 0) ∧ IsBlob imgShadow shadowB ∧
      IsBlob imgShadow (pixelAt 200) ∧
      (∀ q, IsMarker imgShadow q → q ∈ pixelAt 0 ∨ q ∈ shadowB ∨ q ∈ pixelAt 200) ∧
      (∀ q ∈ pixelAt 0, q ∉ shadowB) ∧
      (∃ c, c ∈ pixelAt 0 ∧ IsFirstMarker imgShadow (fun _ => True) c) ∧
      WithinShadow (pixelAt 0) shadowB ∧ HSeparated (pixelAt 0) (pixelAt 200)) ∧
    trackGlints.onBinarized imgShadow = [⟨47, 0⟩, ⟨200, 0⟩] ∧
    ¬ ((trackGlints.onBinarized imgShadow).length = 2 ∧
      (∃ p ∈ trackGlints.onBinarized imgShadow, p ∈ pixelAt 0) ∧
      (∃ p ∈ trackGlints.onBinarized imgShadow, p ∈ pixelAt 200) ∧
      (∀ p ∈ trackGlints.onBinarized imgShadow, p ∉ shadowB)) := by
  refine ⟨⟨isBlob_pixelAt _ _ (by decide), imgShadow_blobB, isBlob_pixelAt _ _ (by decide),
    imgShadow_cover, imgShadow_disjoint, imgShadow_first, imgShadow_within,
    hSeparated_pixelAt _ _ (by decide)⟩, imgShadow_result, ?_⟩
  rw [imgShadow_result]
  rintro ⟨_, _, _, h⟩
  exact h ⟨47, 0⟩ (by simp) ⟨rfl, by decide, by decide⟩

/-- Claim C7, amended: on a binarized image whose marker pixels form three blobs, the
first in raster order `A`, a second `B` closer than 100 columns to it and a third `C`
beyond 100 columns from it, the scan of `trackGlints` picks two raw candidates `c` and
`d`.  `c` is the first marker pixel of the image and lies in `A`; `d` is the first marker
pixel in raster order more than 100 columns away from `c` and lies in `C` or in `A`
itself; neither lies in `B`.  `trackGlints` returns two points, the refinements
`findLocalCenter(m, c, 100)` and `findLocalCenter(m, d, 100)`. -/
theorem shadow_blobs_candidates (m : Mat) (A B C : Set Point) (_hA : IsBlob m A)
    (_hB : IsBlob m B) (hC : IsBlob m C)
    (hcover : ∀ q, IsMarker m q → q ∈ A ∨ q ∈ B ∨ q ∈ C)
    (hdisj : ∀ q ∈ A, q ∉ B)
    (hfirst : ∃ c, c ∈ A ∧ IsFirstMarker m (fun _ => True) c)
    (hAB : WithinShadow A B) (hAC : HSeparated A C) :
    ∃ c d, trackGlints.scan m = [c, d] ∧
      c ∈ A ∧ IsFirstMarker m (fun _ => True) c ∧
      IsFirstMarker m (fun q => OutsideShadow c.x q.x) d ∧ (d ∈ C ∨ d ∈ A) ∧
      c ∉ B ∧ d ∉ B ∧
      (trackGlints.onBinarized m).length = 2 ∧
      (trackGlints.onBinarized m).Perm [findLocalCenter m c 100, findLocalCenter m d 100] := by
  obtain ⟨c, hcA, hc⟩ := hfirst
  obtain ⟨⟨q₃, hq₃⟩, hCm⟩ := hC
  have hnotB : ∀ q, OutsideShadow c.x q.x → q ∉ B := by
    intro q hfar hqB
    have h := hAB c hcA q hqB
    rw [abs_lt] at h
    unfold OutsideShadow at hfar
    omega
  rcases scan_cases m with ⟨h, _⟩ | ⟨c', hc', hin, _⟩ | ⟨c', d, hc', hd, h⟩
  · exact absurd hc.1 (h c)
  · exfalso
    have hcc : c = c' := firstMarker_unique m c c' hc hc'
    subst hcc
    exact hin q₃ (hCm q₃ hq₃) (hAC c hcA q₃ hq₃)
  · have hcc : c = c' := firstMarker_unique m c c' hc hc'
    subst hcc
    have hdB : d ∉ B := hnotB d hd.2.1
    refine ⟨c, d, h, hcA, hc, hd, ?_, hdisj c hcA, hdB, ?_, ?_⟩
    · rcases hcover d hd.1 with h₁ | h₁ | h₁
      · exact Or.inr h₁
      · exact absurd h₁ hdB
      · exact Or.inl h₁
    · rw [length_onBinarized, h]
      rfl
    · have hp := sortByX_perm (trackGlints.refine m (trackGlints.scan m))
      unfold trackGlints.onBinarized
      rw [h] at hp ⊢
      exact hp

/-- The amended claim C7 on `imgShadow`. -/
theorem shadow_blobs_candidates_witness :
    (IsBlob imgShadow (pixelAt 0) ∧ IsBlob imgShadow shadowB ∧
      IsBlob imgShadow (pixelAt 200) ∧
      (∀ q, IsMarker imgShadow q → q ∈ pixelAt 0 ∨ q ∈ shadowB ∨ q ∈ pixelAt 200) ∧
      (∀ q ∈ pixelAt 0, q ∉ shadowB) ∧
      (∃ c, c ∈ pixelAt 0 ∧ IsFirstMarker imgShadow (fun _ => True) c) ∧
      WithinShadow (pixelAt 0) shadowB ∧ HSeparated (pixelAt 0) (pixelAt 200)) ∧
    ∃ c d, trackGlints.scan imgShadow = [c, d] ∧
      c ∈ pixelAt 0 ∧ IsFirstMarker imgShadow (fun _ => True) c ∧
      IsFirstMarker imgShadow (fun q => OutsideShadow c.x q.x) d ∧
      (d ∈ pixelAt 200 ∨ d ∈ pixelAt 0) ∧
      c ∉ shadowB ∧ d ∉ shadowB ∧
      (trackGlints.onBinarized imgShadow).length = 2 ∧
      (trackGlints.onBinarized imgShadow).Perm
        [findLocalCenter imgShadow c 100, findLocalCenter imgShadow d 100] :=
  ⟨⟨isBlob_pixelAt _ _ (by decide), imgShadow_blobB, isBlob_pixelAt _ _ (by decide),
    imgShadow_cover, imgShadow_disjoint, imgShadow_first, imgShadow_within,
    hSeparated_pixelAt _ _ (by decide)⟩,
   shadow_blobs_candidates imgShadow _ _ _ (isBlob_pixelAt _ _ (by decide)) imgShadow_blobB
    (isBlob_pixelAt _ _ (by decide)) imgShadow_cover imgShadow_disjoint imgShadow_first
    imgShadow_within (hSeparated_pixelAt _ _ (by decide))⟩

/-- Claim C9: for a frame of width `W > 0` and height `H > 0` and a glint `(x, y)` of the
downsampled space (`0 ≤ x < W/2`, `0 ≤ y < H/2`), the region of interest
`Rect(2x-100, 2y-80, 200, 160) & Rect(0, 0, W, H)` computed by `trackFrame` lies inside
the frame and is non-empty: it is the unclipped rectangle cut to the frame, with left
edge `max(2x-100, 0)`, right edge `min(2x+100, W)`, top edge `max(2y-80, 0)` and bottom
edge `min(2y+80, H)`. -/
theorem roi_inside_frame (bigM : Mat) (g : Point)
    (hW : 0 < (bigM.cols : Int)) (hH : 0 < (bigM.rows : Int))
    (hx₀ : 0 ≤ g.x) (hx₁ : g.x < (bigM.cols : Int) / 2)
    (hy₀ : 0 ≤ g.y) (hy₁ : g.y < (bigM.rows : Int) / 2) :
    0 ≤ (trackFrame.roi bigM g).x ∧
    (trackFrame.roi bigM g).x + (trackFrame.roi bigM g).width ≤ (bigM.cols : Int) ∧
    0 ≤ (trackFrame.roi bigM g).y ∧
    (trackFrame.roi bigM g).y + (trackFrame.roi bigM g).height ≤ (bigM.rows : Int) ∧
    0 < (trackFrame.roi bigM g).width ∧ 0 < (trackFrame.roi bigM g).height ∧
    (trackFrame.roi bigM g).x = max (2 * g.x - 100) 0 ∧
    (trackFrame.roi bigM g).x + (trackFrame.roi bigM g).width =
      min (2 * g.x + 100) (bigM.cols : Int) ∧
    (trackFrame.roi bigM g).y = max (2 * g.y - 80) 0 ∧
    (trackFrame.roi bigM g).y + (trackFrame.roi bigM g).height =
      min (2 * g.y + 80) (bigM.rows : Int) := by
  have hw : Int.tdiv 200 2 = 100 := by decide
  have hh : Int.tdiv 160 2 = 80 := by decide
  have hgate : ¬ (min (g.x * 2 - 100 + 200) (0 + (bigM.cols : Int)) - max (g.x * 2 - 100) 0 ≤ 0 ∨
      min (g.y * 2 - 80 + 160) (0 + (bigM.rows : Int)) - max (g.y * 2 - 80) 0 ≤ 0) := by
    omega
  simp only [trackFrame.roi, Rect.inter, kEyeRegionWidth, kEyeRegionHeight, hw, hh, hgate,
    if_false]
  omega

/-- Claim C9 on a 4x4 frame with the glint `(1,1)`, where the unclipped 200x160
rectangle exceeds the frame on every side. -/
theorem roi_inside_frame_witness :
    (0 < (frameSmall.cols : Int) ∧ 0 < (frameSmall.rows : Int) ∧
      0 ≤ (⟨1, 1⟩ : Point).x ∧ (⟨1, 1⟩ : Point).x < (frameSmall.cols : Int) / 2 ∧
      0 ≤ (⟨1, 1⟩ : Point).y ∧ (⟨1, 1⟩ : Point).y < (frameSmall.rows : Int) / 2) ∧
    0 ≤ (trackFrame.roi frameSmall ⟨1, 1⟩).x ∧
    (trackFrame.roi frameSmall ⟨1, 1⟩).x + (trackFrame.roi frameSmall ⟨1, 1⟩).width ≤
      (frameSmall.cols : Int) ∧
    0 ≤ (trackFrame.roi frameSmall ⟨1, 1⟩).y ∧
    (trackFrame.roi frameSmall ⟨1, 1⟩).y + (trackFrame.roi frameSmall ⟨1, 1⟩).height ≤
      (frameSmall.rows : Int) ∧
    0 < (trackFrame.roi frameSmall ⟨1, 1⟩).width ∧
    0 < (trackFrame.roi frameSmall ⟨1, 1⟩).height ∧
    (trackFrame.roi frameSmall ⟨1, 1⟩).x = max (2 * (⟨1, 1⟩ : Point).x - 100) 0 ∧
    (trackFrame.roi frameSmall ⟨1, 1⟩).x + (trackFrame.roi frameSmall ⟨1, 1⟩).width =
      min (2 * (⟨1, 1⟩ : Point).x + 100) (frameSmall.cols : Int) ∧
    (trackFrame.roi frameSmall ⟨1, 1⟩).y = max (2 * (⟨1, 1⟩ : Point).y - 80) 0 ∧
    (trackFrame.roi frameSmall ⟨1, 1⟩).y + (trackFrame.roi frameSmall ⟨1, 1⟩).height =
      min (2 * (⟨1, 1⟩ : Point).y + 80) (frameSmall.rows : Int) :=
  ⟨by decide, roi_inside_frame frameSmall ⟨1, 1⟩ (by decide) (by decide) (by decide)
    (by decide) (by decide) (by decide)⟩

/-- Claim C10: on an analysis image of uniform intensity `v`, the inverted mean adaptive
binarization (window 11, bias -30) sets every pixel of the image to 255, so that no
marker pixel exists; `trackGlints` returns the empty list; and the per-glint loop of
`trackFrame` runs zero times, producing no region of interest.  All three functions
are total, so no error arises. -/
theorem uniform_image_no_glint (m : Mat) (v : Nat)
    (h : ∀ i j, 0 ≤ i → i < (m.rows : Int) → 0 ≤ j → j < (m.cols : Int) → m.px i j = v) :
    (∀ i j, 0 ≤ i → i < (m.rows : Int) → 0 ≤ j → j < (m.cols : Int) →
      (adaptiveThreshold m).px i j = 255) ∧
    (∀ q, ¬ IsMarker (adaptiveThreshold m) q) ∧
    trackGlints adaptiveThreshold m = [] ∧
    ∀ bigM, trackFrame.regions bigM (trackGlints adaptiveThreshold m) = [] := by
  have h255 := adaptiveThreshold_uniform m v h
  have hno : ∀ q, ¬ IsMarker (adaptiveThreshold m) q := by
    rintro q ⟨h₁, h₂, h₃, h₄, h₅⟩
    have h₆ : (adaptiveThreshold m).px q.y q.x = 255 := h255 q.y q.x h₁ h₂ h₃ h₄
    omega
  have hempty : trackGlints adaptiveThreshold m = [] := by
    unfold trackGlints trackGlints.onBinarized
    rw [scan_no_marker _ hno]
    rfl
  refine ⟨h255, hno, hempty, ?_⟩
  intro bigM
  rw [hempty]
  rfl

/-- Claim C10 on the 3x3 image of uniform intensity 7. -/
theorem uniform_image_no_glint_witness :
    (∀ i j, 0 ≤ i → i < (imgUniform.rows : Int) → 0 ≤ j → j < (imgUniform.cols : Int) →
      imgUniform.px i j = 7) ∧
    (∀ i j, 0 ≤ i → i < (imgUniform.rows : Int) → 0 ≤ j → j < (imgUniform.cols : Int) →
      (adaptiveThreshold imgUniform).px i j = 255) ∧
    (∀ q, ¬ IsMarker (adaptiveThreshold imgUniform) q) ∧
    trackGlints adaptiveThreshold imgUniform = [] ∧
    ∀ bigM, trackFrame.regions bigM (trackGlints adaptiveThreshold imgUniform) = [] :=
  ⟨fun _ _ _ _ _ _ => rfl, uniform_image_no_glint imgUniform 7 (fun _ _ _ _ _ _ => rfl)⟩

/-! ## Candidates and their refinement -/

theorem scan_mem_marker (m : Mat) (c : Point) (h : c ∈ trackGlints.scan m) : IsMarker m c := by
  rcases scan_cases m with ⟨_, hs⟩ | ⟨c₀, hc₀, _, hs⟩ | ⟨c₀, d, hc₀, hd, hs⟩
  · rw [hs] at h
    simp at h
  · rw [hs] at h
    simp only [List.mem_singleton] at h
    subst h
    exact hc₀.1
  · rw [hs] at h
    simp only [List.mem_cons, List.mem_singleton, List.not_mem_nil, or_false] at h
    rcases h with rfl | rfl
    · exact hc₀.1
    · exact hd.1

theorem scan_pair_outside (m : Mat) (c d : Point) (h : trackGlints.scan m = [c, d]) :
    OutsideShadow c.x d.x := by
  rcases scan_cases m with ⟨_, hs⟩ | ⟨c₀, _, _, hs⟩ | ⟨c₀, d₀, _, hd, hs⟩
  · rw [hs] at h
    simp at h
  · rw [hs] at h
    simp at h
  · rw [hs] at h
    simp only [List.cons.injEq, and_true] at h
    obtain ⟨rfl, rfl⟩ := h
    exact hd.2.1

/-- A marker pixel lies in the clipped window of half-width 100 around itself. -/
theorem marker_in_own_window (m : Mat) (c : Point) (h : IsMarker m c) :
    max 0 (c.y - 100) ≤ c.y ∧ c.y < min (m.rows : Int) (c.y + 100) ∧
    max 0 (c.x - 100) ≤ c.x ∧ c.x < min (m.cols : Int) (c.x + 100) := by
  obtain ⟨h₁, h₂, h₃, h₄, _⟩ := h
  omega

/-- The truncated mean of values in `[lo, hi)` with `0 ≤ lo` lies in `[lo, hi)`. -/
theorem tdiv_mean_bounds (S : Finset (Int × Int)) (f : Int × Int → Int) (lo hi : Int)
    (hne : S.Nonempty) (hlo : 0 ≤ lo) (hf : ∀ q ∈ S, lo ≤ f q ∧ f q < hi) :
    lo ≤ (∑ q in S, f q).tdiv S.card ∧ (∑ q in S, f q).tdiv S.card < hi := by
  have hcard : (0 : Int) < S.card := by
    have := Finset.card_pos.mpr hne
    omega
  have h₁ : (S.card : Int) * lo ≤ ∑ q in S, f q := by
    have := Finset.card_nsmul_le_sum S f lo (fun q hq => (hf q hq).1)
    simpa using this
  have h₂ : (∑ q in S, f q) ≤ (S.card : Int) * (hi - 1) := by
    have := Finset.sum_le_card_nsmul S f (hi - 1) (fun q hq => by have := (hf q hq).2; omega)
    simpa using this
  have hsum : 0 ≤ ∑ q in S, f q := le_trans (Int.mul_nonneg hcard.le hlo) h₁
  rw [Int.tdiv_eq_ediv hsum hcard.le]
  constructor
  · rw [Int.le_ediv_iff_mul_le hcard]
    linarith
  · rw [Int.ediv_lt_iff_lt_mul hcard]
    nlinarith

theorem sum_le_card_mul (S : Finset (Int × Int)) (f : Int × Int → Int) (hi : Int)
    (hf : ∀ q ∈ S, f q < hi) : (∑ q in S, f q) ≤ (S.card : Int) * (hi - 1) := by
  have := Finset.sum_le_card_nsmul S f (hi - 1) (fun q hq => by have := hf q hq; omega)
  simpa using this

/-- A window of half-width 100 holds at most 200 x 200 pixels. -/
theorem card_window_le (m : Mat) (p : Point) : (windowMarkers m p 100).card ≤ 40000 := by
  unfold windowMarkers
  refine (Finset.card_filter_le _ _).trans ?_
  rw [Finset.card_product, Int.card_Ico, Int.card_Ico]
  have h₁ : (min (m.rows : Int) (p.y + 100) - max 0 (p.y - 100)).toNat ≤ 200 := by omega
  have h₂ : (min (m.cols : Int) (p.x + 100) - max 0 (p.x - 100)).toNat ≤ 200 := by omega
  calc _ ≤ 200 * 200 := Nat.mul_le_mul h₁ h₂
    _ = 40000 := by norm_num

/-- In an image of at most 53687 rows and columns the accumulators of a window of
half-width 100 stay below `2^31`. -/
theorem window_sums_lt (m : Mat) (p : Point) (hrows : m.rows ≤ 53687)
    (hcols : m.cols ≤ 53687) (hne : (windowMarkers m p 100).Nonempty) :
    ∑ q in windowMarkers m p 100, q.2 < 2147483648 ∧
    ∑ q in windowMarkers m p 100, q.1 < 2147483648 ∧
    ((windowMarkers m p 100).card : Int) < 2147483648 := by
  have hcard : ((windowMarkers m p 100).card : Int) ≤ 40000 := by
    have := card_window_le m p
    omega
  obtain ⟨⟨i, j⟩, hq⟩ := hne
  have hq' := hq
  simp only [windowMarkers, Finset.mem_filter, Finset.mem_product, Finset.mem_Ico] at hq'
  have hx := sum_le_card_mul (windowMarkers m p 100) (fun q => q.2) (m.cols : Int) (by
    rintro ⟨i, j⟩ hq
    simp only [windowMarkers, Finset.mem_filter, Finset.mem_product, Finset.mem_Ico] at hq
    have := hq.1.2.2
    simp only
    omega)
  have hy := sum_le_card_mul (windowMarkers m p 100) (fun q => q.1) (m.rows : Int) (by
    rintro ⟨i, j⟩ hq
    simp only [windowMarkers, Finset.mem_filter, Finset.mem_product, Finset.mem_Ico] at hq
    have := hq.1.1.2
    simp only
    omega)
  have hx' : ((windowMarkers m p 100).card : Int) * ((m.cols : Int) - 1) ≤ 40000 * 53686 :=
    Int.mul_le_mul hcard (by omega) (by omega) (by norm_num)
  have hy' : ((windowMarkers m p 100).card : Int) * ((m.rows : Int) - 1) ≤ 40000 * 53686 :=
    Int.mul_le_mul hcard (by omega) (by omega) (by norm_num)
  refine ⟨?_, ?_, by omega⟩
  · have : (40000 : Int) * 53686 < 2147483648 := by norm_num
    linarith
  · have : (40000 : Int) * 53686 < 2147483648 := by norm_num
    linarith

/-- In an image of at most 53687 rows and columns, the refinement of a marker pixel stays
in the clipped window around it. -/
theorem refined_in_window (m : Mat) (c : Point) (h : IsMarker m c)
    (hrows : m.rows ≤ 53687) (hcols : m.cols ≤ 53687) :
    max 0 (c.x - 100) ≤ (findLocalCenter m c 100).x ∧
    (findLocalCenter m c 100).x < min (m.cols : Int) (c.x + 100) ∧
    max 0 (c.y - 100) ≤ (findLocalCenter m c 100).y ∧
    (findLocalCenter m c 100).y < min (m.rows : Int) (c.y + 100) := by
  have hw := marker_in_own_window m c h
  have hmem : ((c.y, c.x) : Int × Int) ∈ windowMarkers m c 100 := by
    simp only [windowMarkers, Finset.mem_filter, Finset.mem_product, Finset.mem_Ico]
    exact ⟨⟨⟨hw.1, hw.2.1⟩, hw.2.2.1, hw.2.2.2⟩, h.2.2.2.2⟩
  obtain ⟨hsx, hsy, hsc⟩ := window_sums_lt m c hrows hcols ⟨_, hmem⟩
  rw [findLocalCenter_mean m c 100 ⟨c.y, c.x, hw.1, hw.2.1, hw.2.2.1, hw.2.2.2, h.2.2.2.2⟩
    hsx hsy hsc]
  have hx := tdiv_mean_bounds (windowMarkers m c 100) (fun q => q.2) (max 0 (c.x - 100))
    (min (m.cols : Int) (c.x + 100)) ⟨_, hmem⟩ (le_max_left _ _) (by
      rintro ⟨i, j⟩ hq
      simp only [windowMarkers, Finset.mem_filter, Finset.mem_product, Finset.mem_Ico] at hq
      exact hq.1.2)
  have hy := tdiv_mean_bounds (windowMarkers m c 100) (fun q => q.1) (max 0 (c.y - 100))
    (min (m.rows : Int) (c.y + 100)) ⟨_, hmem⟩ (le_max_left _ _) (by
      rintro ⟨i, j⟩ hq
      simp only [windowMarkers, Finset.mem_filter, Finset.mem_product, Finset.mem_Ico] at hq
      exact hq.1.1)
  exact ⟨hx.1, hx.2, hy.1, hy.2⟩

theorem count_pos_of_marker (m : Mat) (c : Point) (h : IsMarker m c) :
    1 ≤ (findLocalCenter.sums m c kGlintNeighbourhood).count := by
  have hw := marker_in_own_window m c h
  have hmem : ((c.y, c.x) : Int × Int) ∈ windowMarkers m c 100 := by
    simp only [windowMarkers, Finset.mem_filter, Finset.mem_product, Finset.mem_Ico]
    exact ⟨⟨⟨hw.1, hw.2.1⟩, hw.2.2.1, hw.2.2.2⟩, h.2.2.2.2⟩
  have hpos := Finset.card_pos.mpr ⟨_, hmem⟩
  have hle := card_window_le m c
  show 1 ≤ (findLocalCenter.sums m c 100).count
  rw [sums_eq]
  simp only
  rw [wrapInt32_of_range _ (by omega) (by omega)]
  omega

theorem mem_onBinarized (m : Mat) (p : Point) (h : p ∈ trackGlints.onBinarized m) :
    ∃ c ∈ trackGlints.scan m, p = findLocalCenter m c 100 := by
  unfold trackGlints.onBinarized at h
  have h₁ := (sortByX_perm _).subset h
  simp only [trackGlints.refine, List.mem_map] at h₁
  obtain ⟨c, hc, rfl⟩ := h₁
  exact ⟨c, hc, rfl⟩

theorem adaptiveThreshold_values (m : Mat) (i j : Int) :
    (adaptiveThreshold m).px i j = 0 ∨ (adaptiveThreshold m).px i j = 255 := by
  simp only [adaptiveThreshold]
  split
  · exact Or.inl rfl
  · exact Or.inr rfl

/-- Claim C11: when the scan of `trackGlints` finds two candidates `c` and `d`, their
columns, as found and before refinement, differ by at least 100; the test of line 71 is
strict, so they differ by more than 100. -/
theorem scan_pair_separated (m : Mat) (c d : Point) (h : trackGlints.scan m = [c, d]) :
    100 ≤ |d.x - c.x| ∧ 100 < |d.x - c.x| := by
  have hfar := scan_pair_outside m c d h
  unfold OutsideShadow at hfar
  have habs : 100 < |d.x - c.x| := by
    rw [lt_abs]
    omega
  exact ⟨habs.le, habs⟩

/-- Claim C11 on the row with markers in columns 0 and 101. -/
theorem scan_pair_separated_witness :
    trackGlints.scan imgTwo = [⟨0, 0⟩, ⟨101, 0⟩] ∧
    100 ≤ |(⟨101, 0⟩ : Point).x - (⟨0, 0⟩ : Point).x| ∧
    100 < |(⟨101, 0⟩ : Point).x - (⟨0, 0⟩ : Point).x| :=
  ⟨by decide, scan_pair_separated imgTwo ⟨0, 0⟩ ⟨101, 0⟩ (by decide)⟩

/-- Claim C12 fails as stated: for the 284x628 frame `frameGlint` the image passed to
`trackGlints` holds 255 at pixel `(0,0)`, and the same image, read afterwards for the
compositing, holds 0 there: the scanner binarized it in place. -/
theorem glintImage_overwritten_counterexample :
    (283 < frameGlint.rows ∧ 627 < frameGlint.cols) ∧
    (0 < (trackFrame.glintImage specOps frameGlint).rows ∧
      0 < (trackFrame.glintImage specOps frameGlint).cols) ∧
    (trackFrame.glintImage specOps frameGlint).px 0 0 = 255 ∧
    (trackFrame.glintImageAfter specOps frameGlint).px 0 0 = 0 ∧
    ¬ (∀ i j, 0 ≤ i → i < ((trackFrame.glintImage specOps frameGlint).rows : Int) →
      0 ≤ j → j < ((trackFrame.glintImage specOps frameGlint).cols : Int) →
      (trackFrame.glintImageAfter specOps frameGlint).px i j =
        (trackFrame.glintImage specOps frameGlint).px i j) := by
  refine ⟨by decide, by decide, by decide, by decide, ?_⟩
  intro h
  have h₀ := h 0 0 (by decide) (by decide) (by decide) (by decide)
  have h₁ : (trackFrame.glintImageAfter specOps frameGlint).px 0 0 = 0 := by decide
  have h₂ : (trackFrame.glintImage specOps frameGlint).px 0 0 = 255 := by decide
  omega

/-- Claim C12, amended: `trackGlints` works on the image it is given, not on a copy.
For every frame, the image `trackFrame` reads afterwards for the compositing is the
binarized image, the output of the adaptive threshold on the image passed to
`trackGlints`; planes 0 and 2 of the composite are its minimum with the rescaled
downsampled image, and plane 1 is that rescaled image, which the scanner never touches.
With the binarization of the spec every pixel of the image read for compositing is 0 or
255. -/
theorem glintImage_binarized_in_place (ops : ImageOps) (bigM : Mat) :
    trackFrame.glintImageAfter ops bigM =
      ops.adaptiveThreshold (trackFrame.glintImage ops bigM) ∧
    (trackFrame ops bigM).channels.c0 =
      cvMin (trackFrame.display ops bigM)
        (ops.adaptiveThreshold (trackFrame.glintImage ops bigM)) ∧
    (trackFrame ops bigM).channels.c2 =
      cvMin (trackFrame.display ops bigM)
        (ops.adaptiveThreshold (trackFrame.glintImage ops bigM)) ∧
    (trackFrame ops bigM).channels.c1 =
      ops.convertTo (trackFrame.downsampled ops bigM) k8BitMultiplierNum k8BitMultiplierDen ∧
    (∀ i j, (trackFrame.glintImageAfter specOps bigM).px i j = 0 ∨
      (trackFrame.glintImageAfter specOps bigM).px i j = 255) :=
  ⟨rfl, rfl, rfl, rfl, fun i j => adaptiveThreshold_values _ i j⟩

/-- Claim C13 fails as stated: for the 284x628 frame `frameGlint`, at pixel `(0,0)` plane
1 of the debug composite holds 255 while planes 0 and 2 hold 0. -/
theorem debug_planes_differ_counterexample :
    (283 < frameGlint.rows ∧ 627 < frameGlint.cols) ∧
    (trackFrame specOps frameGlint).channels.c1.px 0 0 = 255 ∧
    (trackFrame specOps frameGlint).channels.c0.px 0 0 = 0 ∧
    (trackFrame specOps frameGlint).channels.c2.px 0 0 = 0 ∧
    (trackFrame specOps frameGlint).channels.c0.px 0 0 ≠
      (trackFrame specOps frameGlint).channels.c1.px 0 0 :=
  ⟨by decide, by decide, by decide, by decide, by decide⟩

/-- Claim C13, amended: before the glint markers are drawn the debug composite has the
layout `{min(M, B), M, min(M, B)}`, where `M` is the downsampled image rescaled to 8 bits
by `k8BitMultiplier` and `B` is the binarized glint image.  At every pixel plane 1 is
`M` and planes 0 and 2 are the minimum of `M` and `B`: they are 0 where `B` is 0 (a
marker pixel) and equal plane 1 where `M ≤ B`.  With the library routines of the spec
`M ≤ 255`, so planes 0 and 2 equal plane 1 at every pixel where `B` is 255. -/
theorem composite_planes (ops : ImageOps) (bigM : Mat) (i j : Int) :
    (trackFrame ops bigM).channels.c1.px i j = (trackFrame.display ops bigM).px i j ∧
    (trackFrame ops bigM).channels.c0.px i j =
      min ((trackFrame.display ops bigM).px i j)
        ((ops.adaptiveThreshold (trackFrame.glintImage ops bigM)).px i j) ∧
    (trackFrame ops bigM).channels.c2.px i j = (trackFrame ops bigM).channels.c0.px i j ∧
    ((ops.adaptiveThreshold (trackFrame.glintImage ops bigM)).px i j = 0 →
      (trackFrame ops bigM).channels.c0.px i j = 0) ∧
    ((trackFrame.display ops bigM).px i j ≤
        (ops.adaptiveThreshold (trackFrame.glintImage ops bigM)).px i j →
      (trackFrame ops bigM).channels.c0.px i j = (trackFrame ops bigM).channels.c1.px i j) ∧
    ((specOps.adaptiveThreshold (trackFrame.glintImage specOps bigM)).px i j = 255 →
      (trackFrame specOps bigM).channels.c0.px i j =
        (trackFrame specOps bigM).channels.c1.px i j) := by
  refine ⟨rfl, rfl, rfl, ?_, ?_, ?_⟩
  · intro h
    show min _ ((ops.adaptiveThreshold (trackFrame.glintImage ops bigM)).px i j) = 0
    rw [h]
    exact Nat.min_zero _
  · intro h
    show min _ _ = _
    exact Nat.min_eq_left h
  · intro h
    show min _ ((specOps.adaptiveThreshold (trackFrame.glintImage specOps bigM)).px i j) = _
    apply Nat.min_eq_left
    rw [h]
    show min 255 _ ≤ 255
    exact Nat.min_le_left _ _

/-- The amended claim C13 on `frameGlint` at pixel `(0,0)`, a marker pixel. -/
theorem composite_planes_witness :
    (specOps.adaptiveThreshold (trackFrame.glintImage specOps frameGlint)).px 0 0 = 0 ∧
    (trackFrame specOps frameGlint).channels.c0.px 0 0 = 0 :=
  ⟨by decide, (composite_planes specOps frameGlint 0 0).2.2.2.1 (by decide)⟩

/-- Claim C14: for a frame with more than 283 rows and more than 627 columns, the sensor
defect correction of `trackFrame` sets the pixel at row 283, column 627 to the value the
frame held at row 283, column 626, leaves every other pixel and the dimensions
unchanged, and nothing later in `trackFrame` writes to the frame. -/
theorem stuck_pixel_correction (ops : ImageOps) (bigM : Mat)
    (_hrows : 283 < bigM.rows) (_hcols : 627 < bigM.cols) :
    (trackFrame.fixStuckPixel bigM).px 283 627 = bigM.px 283 626 ∧
    (∀ i j, ¬ (i = 283 ∧ j = 627) → (trackFrame.fixStuckPixel bigM).px i j = bigM.px i j) ∧
    (trackFrame.fixStuckPixel bigM).rows = bigM.rows ∧
    (trackFrame.fixStuckPixel bigM).cols = bigM.cols ∧
    (trackFrame ops bigM).frame = trackFrame.fixStuckPixel bigM := by
  refine ⟨?_, ?_, rfl, rfl, rfl⟩
  · simp [trackFrame.fixStuckPixel]
  · intro i j hij
    simp only [trackFrame.fixStuckPixel]
    rw [if_neg hij]

/-- Claim C14 on the 284x628 frame `frameGlint`. -/
theorem stuck_pixel_correction_witness :
    (283 < frameGlint.rows ∧ 627 < frameGlint.cols) ∧
    (trackFrame.fixStuckPixel frameGlint).px 283 627 = frameGlint.px 283 626 ∧
    (∀ i j, ¬ (i = 283 ∧ j = 627) →
      (trackFrame.fixStuckPixel frameGlint).px i j = frameGlint.px i j) ∧
    (trackFrame.fixStuckPixel frameGlint).rows = frameGlint.rows ∧
    (trackFrame.fixStuckPixel frameGlint).cols = frameGlint.cols ∧
    (trackFrame specOps frameGlint).frame = trackFrame.fixStuckPixel frameGlint :=
  ⟨by decide, stuck_pixel_correction specOps frameGlint (by decide) (by decide)⟩

/-- Claim C16: for a frame of width `W` and height `H` and a glint `(x, y)` with
`100 ≤ 2x ≤ W-100` and `80 ≤ 2y ≤ H-80`, the region of interest computed by `trackFrame`
is exactly `Rect(2x-100, 2y-80, 200, 160)`: clipping changes nothing. -/
theorem roi_interior (bigM : Mat) (g : Point)
    (hx₀ : 100 ≤ 2 * g.x) (hx₁ : 2 * g.x ≤ (bigM.cols : Int) - 100)
    (hy₀ : 80 ≤ 2 * g.y) (hy₁ : 2 * g.y ≤ (bigM.rows : Int) - 80) :
    trackFrame.roi bigM g = ⟨2 * g.x - 100, 2 * g.y - 80, 200, 160⟩ := by
  have hw : Int.tdiv 200 2 = 100 := by decide
  have hh : Int.tdiv 160 2 = 80 := by decide
  have hgate : ¬ (min (g.x * 2 - 100 + 200) (0 + (bigM.cols : Int)) - max (g.x * 2 - 100) 0 ≤ 0 ∨
      min (g.y * 2 - 80 + 160) (0 + (bigM.rows : Int)) - max (g.y * 2 - 80) 0 ≤ 0) := by
    omega
  simp only [trackFrame.roi, Rect.inter, kEyeRegionWidth, kEyeRegionHeight, hw, hh, hgate,
    if_false]
  congr 1 <;> omega

/-- Claim C16 on the 284x628 frame `frameGlint` with the glint `(100, 100)`. -/
theorem roi_interior_witness :
    (100 ≤ 2 * (⟨100, 100⟩ : Point).x ∧
      2 * (⟨100, 100⟩ : Point).x ≤ (frameGlint.cols : Int) - 100 ∧
      80 ≤ 2 * (⟨100, 100⟩ : Point).y ∧
      2 * (⟨100, 100⟩ : Point).y ≤ (frameGlint.rows : Int) - 80) ∧
    trackFrame.roi frameGlint ⟨100, 100⟩ =
      ⟨2 * (⟨100, 100⟩ : Point).x - 100, 2 * (⟨100, 100⟩ : Point).y - 80, 200, 160⟩ :=
  ⟨by decide, roi_interior frameGlint ⟨100, 100⟩ (by decide) (by decide) (by decide)
    (by decide)⟩

/-- Claim C17: refinement may narrow the separation gap.  On the binarized row `imgNarrow`
(markers in column 0, columns 90..99 and column 101) the scan finds the candidates
`(0,0)` and `(101,0)`, 101 columns apart, and `trackGlints` returns `(85,0)` and
`(95,0)`, whose `x` coordinates differ by 10. -/
theorem refinement_narrows_gap :
    ∃ (m : Mat) (c d p q : Point),
      trackGlints.scan m = [c, d] ∧ 100 < |d.x - c.x| ∧
      trackGlints.onBinarized m = [p, q] ∧ |q.x - p.x| < 100 :=
  ⟨imgNarrow, ⟨0, 0⟩, ⟨101, 0⟩, ⟨85, 0⟩, ⟨95, 0⟩, by decide, by decide, by decide, by decide⟩

/-- Claim C18: inside `trackGlints` the refiner never takes its degenerate branch.  Every
candidate `c` found by the scan is a marker pixel lying in its own clipped window of
half-width 100, so `count ≥ 1` at the end of the loops of `findLocalCenter`, the result
is the mean `(xSum / count, ySum / count)` and not the `(0,0)` fallback, and
`trackGlints` returns as many points as the scan found candidates. -/
theorem refiner_never_degenerate (binarize : Mat → Mat) (m : Mat) :
    (∀ c ∈ trackGlints.scan (binarize m),
      IsMarker (binarize m) c ∧
      (max 0 (c.y - 100) ≤ c.y ∧ c.y < min ((binarize m).rows : Int) (c.y + 100) ∧
        max 0 (c.x - 100) ≤ c.x ∧ c.x < min ((binarize m).cols : Int) (c.x + 100)) ∧
      1 ≤ (findLocalCenter.sums (binarize m) c kGlintNeighbourhood).count ∧
      findLocalCenter (binarize m) c kGlintNeighbourhood =
        ⟨(findLocalCenter.sums (binarize m) c kGlintNeighbourhood).xSum.tdiv
            (findLocalCenter.sums (binarize m) c kGlintNeighbourhood).count,
         (findLocalCenter.sums (binarize m) c kGlintNeighbourhood).ySum.tdiv
            (findLocalCenter.sums (binarize m) c kGlintNeighbourhood).count⟩) ∧
    (trackGlints binarize m).length = (trackGlints.scan (binarize m)).length := by
  refine ⟨?_, length_onBinarized _⟩
  intro c hc
  have hm := scan_mem_marker _ c hc
  have hcount := count_pos_of_marker _ c hm
  refine ⟨hm, marker_in_own_window _ c hm, hcount, ?_⟩
  unfold findLocalCenter
  simp only
  rw [if_neg (by omega)]

/-- Claim C18 on the 2x2 image with one bright pixel, binarized as in the spec: the
candidate `(0,0)`. -/
theorem refiner_never_degenerate_witness :
    (⟨0, 0⟩ : Point) ∈ trackGlints.scan (adaptiveThreshold imgBright) ∧
    1 ≤ (findLocalCenter.sums (adaptiveThreshold imgBright) ⟨0, 0⟩ kGlintNeighbourhood).count :=
  ⟨by decide,
    ((refiner_never_degenerate adaptiveThreshold imgBright).1 ⟨0, 0⟩ (by decide)).2.2.1⟩

theorem imgFar_filled : IsFilledBlob imgFar 214800 214899 0 99 := by
  refine ⟨by decide, by decide, by decide, by decide, by decide, by decide, ?_⟩
  intro i j hi₀ hi₁ hj₀ hj₁
  simp only [imgFar] at hi₁ hj₁ ⊢
  constructor
  · intro h
    split at h
    · omega
    · simp at h
  · intro h
    rw [if_pos h.2.2.1]

/-- On an image whose markers are one filled blob at most 101 columns wide the scan finds
a single candidate, the top-left pixel of the blob. -/
theorem scan_filled_narrow (m : Mat) (x0 x1 y0 y1 : Int) (hblob : IsFilledBlob m x0 x1 y0 y1)
    (hwidth : x1 - x0 ≤ 100) : trackGlints.scan m = [⟨x0, y0⟩] := by
  obtain ⟨h₁, h₂, h₃, h₄, h₅, h₆, hpx⟩ := hblob
  have hrect : ∀ q, IsMarker m q → y0 ≤ q.y ∧ q.y ≤ y1 ∧ x0 ≤ q.x ∧ q.x ≤ x1 := by
    rintro q ⟨hq₁, hq₂, hq₃, hq₄, hq₅⟩
    exact (hpx q.y q.x hq₁ hq₂ hq₃ hq₄).mp hq₅
  have hcorner : IsMarker m ⟨x0, y0⟩ :=
    ⟨by simp only; omega, by simp only; omega, by simp only; omega, by simp only; omega,
      (hpx y0 x0 (by omega) (by omega) (by omega) (by omega)).mpr (by omega)⟩
  rcases scan_cases m with ⟨hno, _⟩ | ⟨c, hc, _, hs⟩ | ⟨c, d, hc, hd, _⟩
  · exact absurd hcorner (hno _)
  · have hcr := hrect c hc.1
    rcases hc.2.2 ⟨x0, y0⟩ hcorner trivial with heq | hbefore
    · rw [hs, heq]
    · unfold RasterBefore at hbefore
      simp only at hbefore
      omega
  · have hcr := hrect c hc.1
    have hdr := hrect d hd.1
    have hfar := hd.2.1
    unfold OutsideShadow at hfar
    omega

theorem imgFar_sums :
    (∑ q in windowMarkers imgFar ⟨214800, 0⟩ 100, q.2) = 2148495000 ∧
    (∑ q in windowMarkers imgFar ⟨214800, 0⟩ 100, q.1) = 495000 ∧
    ((windowMarkers imgFar ⟨214800, 0⟩ 100).card : Int) = 10000 := by
  obtain ⟨hx, hy, hc⟩ := sums_filled imgFar ⟨214800, 0⟩ 100 214800 214899 0 99
    imgFar_filled (by decide) (by decide) (by decide) (by decide)
  norm_num at hx hy hc
  exact ⟨by omega, by omega, by omega⟩

theorem imgFar_result : trackGlints.onBinarized imgFar = [⟨-214647, 49⟩] := by
  obtain ⟨hx, hy, hc⟩ := imgFar_sums
  have hscan := scan_filled_narrow imgFar 214800 214899 0 99 imgFar_filled (by decide)
  have href : findLocalCenter imgFar ⟨214800, 0⟩ 100 = ⟨-214647, 49⟩ := by
    rw [findLocalCenter_wrapped, hx, hy, hc]
    decide
  unfold trackGlints.onBinarized trackGlints.refine
  rw [hscan]
  show sortByX [findLocalCenter imgFar ⟨214800, 0⟩ 100] = _
  rw [href]
  rfl

/-- Claim C19 fails as stated: the binarized 100x214900 image `imgFar` has its markers in
columns 214800..214899 and rows 0..99.  The scan finds the single candidate
`(214800, 0)`; its window holds 10000 markers whose column sum 2148495000 exceeds the
largest `int`, `xSum` wraps to -2146472296, and `trackGlints` returns `(-214647, 49)`,
a point left of the image and of the window. -/
theorem refined_point_outside_counterexample :
    (0 < imgFar.rows ∧ 0 < imgFar.cols) ∧
    trackGlints.scan imgFar = [⟨214800, 0⟩] ∧
    trackGlints.onBinarized imgFar = [⟨-214647, 49⟩] ∧
    (⟨-214647, 49⟩ : Point) ∈ trackGlints.onBinarized imgFar ∧
    ¬ (0 ≤ (⟨-214647, 49⟩ : Point).x) ∧
    ¬ ((⟨214800, 0⟩ : Point).x - 100 ≤ (⟨-214647, 49⟩ : Point).x) := by
  refine ⟨by decide,
    scan_filled_narrow imgFar 214800 214899 0 99 imgFar_filled (by decide),
    imgFar_result, ?_, by decide, by decide⟩
  rw [imgFar_result]
  simp

/-- Claim C19, amended: for every image with at most 53687 rows and 53687 columns, so
that the coordinate sums over a 200x200 window fit in `int`, every point `p` returned by
`trackGlints` is the refinement of a raw candidate `c` of the scan, lies inside the
image (`0 ≤ p.x < cols`, `0 ≤ p.y < rows`) and inside the refinement window of `c`
(`c.x-100 ≤ p.x < c.x+100`, `c.y-100 ≤ p.y < c.y+100`).  The binarization is done in
place and keeps the dimensions of the image.  The bounds need no assumption `rows > 0`,
`cols > 0`. -/
theorem trackGlints_points_in_bounds (binarize : Mat → Mat) (m : Mat)
    (hrows : (binarize m).rows = m.rows) (hcols : (binarize m).cols = m.cols)
    (hrowsmax : m.rows ≤ 53687) (hcolsmax : m.cols ≤ 53687)
    (p : Point) (hp : p ∈ trackGlints binarize m) :
    ∃ c ∈ trackGlints.scan (binarize m),
      p = findLocalCenter (binarize m) c 100 ∧
      (0 ≤ p.x ∧ p.x < (m.cols : Int) ∧ 0 ≤ p.y ∧ p.y < (m.rows : Int)) ∧
      (c.x - 100 ≤ p.x ∧ p.x < c.x + 100 ∧ c.y - 100 ≤ p.y ∧ p.y < c.y + 100) := by
  obtain ⟨c, hc, rfl⟩ := mem_onBinarized _ p hp
  have hb := refined_in_window _ c (scan_mem_marker _ c hc) (by omega) (by omega)
  rw [hrows, hcols] at hb
  refine ⟨c, hc, rfl, ?_, ?_⟩ <;> omega

/-- The amended claim C19 on the 2x2 image with one bright pixel, binarized as in the
spec: the returned point `(0,0)`. -/
theorem trackGlints_points_in_bounds_witness :
    ((adaptiveThreshold imgBright).rows = imgBright.rows ∧
      (adaptiveThreshold imgBright).cols = imgBright.cols ∧
      imgBright.rows ≤ 53687 ∧ imgBright.cols ≤ 53687 ∧
      (⟨0, 0⟩ : Point) ∈ trackGlints adaptiveThreshold imgBright) ∧
    ∃ c ∈ trackGlints.scan (adaptiveThreshold imgBright),
      (⟨0, 0⟩ : Point) = findLocalCenter (adaptiveThreshold imgBright) c 100 ∧
      (0 ≤ (⟨0, 0⟩ : Point).x ∧ (⟨0, 0⟩ : Point).x < (imgBright.cols : Int) ∧
        0 ≤ (⟨0, 0⟩ : Point).y ∧ (⟨0, 0⟩ : Point).y < (imgBright.rows : Int)) ∧
      (c.x - 100 ≤ (⟨0, 0⟩ : Point).x ∧ (⟨0, 0⟩ : Point).x < c.x + 100 ∧
        c.y - 100 ≤ (⟨0, 0⟩ : Point).y ∧ (⟨0, 0⟩ : Point).y < c.y + 100) :=
  ⟨⟨rfl, rfl, by decide, by decide, by decide⟩,
    trackGlints_points_in_bounds adaptiveThreshold imgBright rfl rfl (by decide) (by decide)
      ⟨0, 0⟩ (by decide)⟩

end SmartGaze
